import Mathlib

/-! Bonding collector (`collector/bonding.go`).

A shallow embedding of `readBondingStats`, the walk over the sysfs tree of
bonding masters, together with the library functions it calls
(`strings.Fields`, `strings.TrimSpace`, `path.Join`, `os.IsNotExist`,
`ioutil.ReadFile`).

Modelling conventions:

* Go strings and file contents are lists of code points (`Str`): the text
  that `strings.Fields` and `strings.TrimSpace` decode, taken to be valid
  UTF-8.
* The filesystem is a function from a path to the outcome of `ioutil.ReadFile`
  on that path: either the content or an error value.
* `readBondingStats` returns the Go pair `(status, err)`; each component is an
  `Option`, `none` standing for Go's `nil`.
* Every function that reads files also returns the list of paths handed to
  `ioutil.ReadFile`, in call order.  The log is ghost state: no result depends
  on it.
* The counters are Go `int`s.  They count names of a file held in memory, so
  they stay far below `2^63` and are modelled by unbounded integers.
* The two `prometheus.GaugeVec` globals are the state of `Update`: each is the
  list of the gauges created so far, by the value of the label `master`.
  `Update` takes the state and returns the new one, with its error and the
  metrics it sends on the channel.  The conversion `float64` of a counter is a
  parameter, so every statement holds for the conversion of Go.
-/

namespace Bonding

/-! ## Strings -/

/-- A Go string, as its list of code points. -/
abbrev Str := List Char

/-- Go `unicode.IsSpace`: the code points with the Unicode White_Space property. -/
def isSpace (c : Char) : Bool :=
  let n := c.toNat
  n == 0x20 || (0x09 ≤ n && n ≤ 0x0D) || n == 0x85 || n == 0xA0 || n == 0x1680 ||
    (0x2000 ≤ n && n ≤ 0x200A) || n == 0x2028 || n == 0x2029 || n == 0x202F ||
    n == 0x205F || n == 0x3000

/-- Worker of `fields`: `cur` is the field being read (empty between fields). -/
def fieldsAux : Str → Str → List Str
  | [], cur => if cur = [] then [] else [cur]
  | c :: cs, cur =>
    if isSpace c then
      if cur = [] then fieldsAux cs [] else cur :: fieldsAux cs []
    else fieldsAux cs (cur ++ [c])

/-- Go `strings.Fields`: the maximal runs of non-space code points, in order. -/
def fields (s : Str) : List Str := fieldsAux s []

/-- Go `strings.TrimSpace`: drop leading and trailing white space. -/
def trimSpace (s : Str) : Str :=
  ((s.dropWhile isSpace).reverse.dropWhile isSpace).reverse

/-! ## Paths (`path.Join`, `path.Clean`) -/

/-- Go `strings.Split(s, "/")`. -/
def splitSlash : Str → List Str
  | [] => [[]]
  | c :: cs =>
    if c = '/' then [] :: splitSlash cs
    else
      match splitSlash cs with
      | [] => [[c]]
      | h :: t => (c :: h) :: t

/-- The path element `..`. -/
def dotdot : Str := ['.', '.']

/-- One element of `path.Clean`.  `stack` holds the elements kept so far, the
last one first.  Empty elements and `.` are dropped; `..` removes the element
before it, is dropped at the root of a rooted path, and is kept at the start
of a relative one. -/
def cleanStep (rooted : Bool) (stack : List Str) (comp : Str) : List Str :=
  if comp = [] ∨ comp = ['.'] then stack
  else if comp = dotdot then
    match stack with
    | [] => if rooted then [] else [dotdot]
    | top :: below => if top = dotdot then dotdot :: stack else below
  else comp :: stack

/-- Write the kept elements (in path order) separated by `/`. -/
def joinSlash : List Str → Str
  | [] => []
  | [a] => a
  | a :: b :: rest => a ++ '/' :: joinSlash (b :: rest)

/-- Go `path.Clean`. -/
def clean (p : Str) : Str :=
  let rooted := p.head? == some '/'
  let stack := (splitSlash p).foldl (cleanStep rooted) []
  if rooted then '/' :: joinSlash stack.reverse
  else if stack = [] then ['.'] else joinSlash stack.reverse

/-- Leading empty elements are ignored by `path.Join`. -/
def dropEmpty : List Str → List Str
  | [] => []
  | e :: rest => if e = [] then dropEmpty rest else e :: rest

/-- Go `path.Join`: the elements from the first non-empty one on, joined by
`/` and cleaned; the empty string when every element is empty. -/
def join (elem : List Str) : Str :=
  match dropEmpty elem with
  | [] => []
  | e :: rest => clean (joinSlash (e :: rest))

/-! ## Files and errors -/

/-- An error value returned by `ioutil.ReadFile`. -/
inductive IOError where
  /-- The file does not exist (`ENOENT`). -/
  | notExist (path : Str)
  /-- Any other failure, with its error number. -/
  | other (path : Str) (errno : Nat)
  deriving DecidableEq, Repr

/-- Go `os.IsNotExist`; `false` on a `nil` error. -/
def isNotExist : Option IOError → Bool
  | some (IOError.notExist _) => true
  | _ => false

/-- A filesystem: what `ioutil.ReadFile` yields for each path. -/
abbrev FS := Str → Except IOError Str

/-- Go `ioutil.ReadFile`, as the pair `(data, err)`. -/
def readFile (fs : FS) (name : Str) : Str × Option IOError :=
  match fs name with
  | .ok data => (data, none)
  | .error e => ([], some e)

/-! ## The status map -/

/-- Go `map[string][2]int`: at most one entry per key. -/
abbrev StatusMap := List (Str × (Int × Int))

/-- The map lookup `status[key]`, `none` when the key is absent. -/
def StatusMap.get? : StatusMap → Str → Option (Int × Int)
  | [], _ => none
  | (k, v) :: rest, key => if k = key then some v else StatusMap.get? rest key

/-- The map assignment `status[key] = val`. -/
def StatusMap.set : StatusMap → Str → Int × Int → StatusMap
  | [], key, val => [(key, val)]
  | (k, v) :: rest, key, val =>
    if k = key then (k, val) :: rest else (k, v) :: StatusMap.set rest key val

/-! ## `readBondingStats` -/

/-- The path of the list of masters. -/
def mastersPath (root : Str) : Str :=
  join [root, "bonding_masters".toList]

/-- The path of the list of slaves of `master`. -/
def slavesPath (root master : Str) : Str :=
  join [root, master, "bonding".toList, "slaves".toList]

/-- The first place looked at for the state of `slave`. -/
def lowerPath (root master slave : Str) : Str :=
  join [root, master, "lower_".toList ++ slave, "operstate".toList]

/-- The place looked at when the first one does not exist. -/
def slavePath (root master slave : Str) : Str :=
  join [root, master, "slave_".toList ++ slave, "operstate".toList]

/-- Lines 75-79: read the state of `slave`, first under `lower_`, then, when
that file does not exist, under `slave_`.  Returns `(state, err)` and the
paths read. -/
def readOperstate (fs : FS) (root master slave : Str) :
    (Str × Option IOError) × List Str :=
  let r := readFile fs (lowerPath root master slave)
  if isNotExist r.2 then
    (readFile fs (slavePath root master slave),
      [lowerPath root master slave, slavePath root master slave])
  else (r, [lowerPath root master slave])

/-- Lines 74-87: the loop over the slaves of `master`, from the counters
`sstat`.  An error ends the loop. -/
def slavesLoop (fs : FS) (root master : Str) :
    List Str → Int × Int → Except IOError (Int × Int) × List Str
  | [], sstat => (.ok sstat, [])
  | slave :: rest, sstat =>
    match readOperstate fs root master slave with
    | ((_, some err), log) => (.error err, log)
    | ((state, none), log) =>
      let r := slavesLoop fs root master rest
        (sstat.1 + 1, if trimSpace state = "up".toList then sstat.2 + 1 else sstat.2)
      (r.1, log ++ r.2)

/-- Lines 68-89: the loop over the masters, from the map `status`.  An error
ends the loop. -/
def mastersLoop (fs : FS) (root : Str) :
    List Str → StatusMap → Except IOError StatusMap × List Str
  | [], status => (.ok status, [])
  | master :: rest, status =>
    match readFile fs (slavesPath root master) with
    | (_, some err) => (.error err, [slavesPath root master])
    | (slaves, none) =>
      match slavesLoop fs root master (fields slaves) (0, 0) with
      | (.error err, log) => (.error err, slavesPath root master :: log)
      | (.ok sstat, log) =>
        let r := mastersLoop fs root rest (status.set master sstat)
        (r.1, slavesPath root master :: log ++ r.2)

/-- Lines 62-91: `readBondingStats`, with the paths it reads.  The final
`return status, err` returns the `err` of the read of the masters file, which
is `nil` there. -/
def readBondingStatsLog (fs : FS) (root : Str) :
    (Option StatusMap × Option IOError) × List Str :=
  match readFile fs (mastersPath root) with
  | (_, some err) => ((none, some err), [mastersPath root])
  | (masters, none) =>
    match mastersLoop fs root (fields masters) [] with
    | (.error err, log) => ((none, some err), mastersPath root :: log)
    | (.ok status, log) => ((some status, none), mastersPath root :: log)

/-- The pair `(status, err)` returned by `readBondingStats(root)`. -/
def readBondingStats (fs : FS) (root : Str) : Option StatusMap × Option IOError :=
  (readBondingStatsLog fs root).1

/-- The paths `readBondingStats(root)` passes to `ioutil.ReadFile`, in order. -/
def readBondingStatsReads (fs : FS) (root : Str) : List Str :=
  (readBondingStatsLog fs root).2

/-! ## Example trees -/

/-- The tree of the example scenario, below the root `/sys/class/net`. -/
def exampleFS : FS := fun p =>
  if p = "/sys/class/net/bonding_masters".toList then .ok "bond0 bond1".toList
  else if p = "/sys/class/net/bond0/bonding/slaves".toList then .ok "eth0 eth1".toList
  else if p = "/sys/class/net/bond0/lower_eth0/operstate".toList then .ok "up".toList
  else if p = "/sys/class/net/bond0/lower_eth1/operstate".toList then .ok "down".toList
  else if p = "/sys/class/net/bond1/bonding/slaves".toList then .ok []
  else .error (IOError.notExist p)

/-- The root the collector reads. -/
def sysfsNet : Str := "/sys/class/net".toList

/-- The example scenario on an older kernel: the state of `eth0` is found
under `slave_eth0` and not under `lower_eth0`; everything else is as in
`exampleFS`. -/
def fallbackFS : FS := fun p =>
  if p = lowerPath sysfsNet "bond0".toList "eth0".toList then .error (IOError.notExist p)
  else if p = slavePath sysfsNet "bond0".toList "eth0".toList then .ok "up".toList
  else exampleFS p

/-- A tree whose second slave has an unreadable `lower_` state (error number
13, permission denied) next to a readable `slave_` state. -/
def deniedFS : FS := fun p =>
  if p = "/sys/class/net/bonding_masters".toList then .ok "bond0\n".toList
  else if p = "/sys/class/net/bond0/bonding/slaves".toList then .ok "eth0 eth1\n".toList
  else if p = "/sys/class/net/bond0/lower_eth0/operstate".toList then .ok "up\n".toList
  else if p = "/sys/class/net/bond0/lower_eth1/operstate".toList then .error (IOError.other p 13)
  else if p = "/sys/class/net/bond0/slave_eth1/operstate".toList then .ok "up\n".toList
  else .error (IOError.notExist p)

/-- A tree whose second master has a slave without any state file; the first
master is well formed. -/
def orphanFS : FS := fun p =>
  if p = "/sys/class/net/bonding_masters".toList then .ok "bond0 bond1\n".toList
  else if p = "/sys/class/net/bond0/bonding/slaves".toList then .ok "eth0\n".toList
  else if p = "/sys/class/net/bond0/lower_eth0/operstate".toList then .ok "up\n".toList
  else if p = "/sys/class/net/bond1/bonding/slaves".toList then .ok "eth2 eth3\n".toList
  else if p = "/sys/class/net/bond1/lower_eth2/operstate".toList then .ok "down\n".toList
  else .error (IOError.notExist p)

/-- A tree with one master without slaves: its slaves file holds a newline. -/
def idleFS : FS := fun p =>
  if p = "/sys/class/net/bonding_masters".toList then .ok "bond0\n".toList
  else if p = "/sys/class/net/bond0/bonding/slaves".toList then .ok "\n".toList
  else .error (IOError.notExist p)

/-! ## `Update` and the gauge vectors -/

/-- A `prometheus.GaugeVec` with the single label `master`: the gauges created
so far and their values. -/
abbrev GaugeVec (F : Type) := List (Str × F)

/-- The value of the gauge with label value `master`, `none` when no such
gauge was created. -/
def GaugeVec.get? {F : Type} : GaugeVec F → Str → Option F
  | [], _ => none
  | (l, x) :: rest, master => if l = master then some x else GaugeVec.get? rest master

/-- The call `vec.WithLabelValues(master).Set(x)`: the gauge is created when
it is not there, and takes the value `x`. -/
def GaugeVec.withLabelValuesSet {F : Type} : GaugeVec F → Str → F → GaugeVec F
  | [], master, x => [(master, x)]
  | (l, y) :: rest, master, x =>
    if l = master then (l, x) :: rest
    else (l, y) :: GaugeVec.withLabelValuesSet rest master x

/-- A metric sent on the channel: the name of its vector, its label value and
its value. -/
structure Metric (F : Type) where
  /-- The `Name` of the `GaugeOpts`; the constant `Namespace` that the full
  name starts with is declared elsewhere in the package. -/
  name : Str
  /-- The value of the label `master`. -/
  master : Str
  /-- The value of the gauge. -/
  value : F
  deriving DecidableEq, Repr

/-- The call `vec.Collect(ch)`: every gauge of the vector is sent. -/
def GaugeVec.collect {F : Type} (name : Str) (vec : GaugeVec F) : List (Metric F) :=
  vec.map fun g => { name := name, master := g.1, value := g.2 }

/-- The two global vectors of lines 19-32. -/
structure Gauges (F : Type) where
  /-- The vector `net_bonding_slaves`. -/
  bondingSlaves : GaugeVec F
  /-- The vector `net_bonding_slaves_active`. -/
  bondingSlavesActive : GaugeVec F
  deriving DecidableEq, Repr

/-- Lines 53-56: the loop over the entries of the map.  Go leaves the order
of `range` over a map open; the keys of a map are distinct, so each gauge is
set once and the values that result do not depend on the order. -/
def setGauges {F : Type} (float64 : Int → F) : StatusMap → Gauges F → Gauges F
  | [], g => g
  | (master, status) :: rest, g =>
    setGauges float64 rest
      { bondingSlaves := g.bondingSlaves.withLabelValuesSet master (float64 status.1)
        bondingSlavesActive :=
          g.bondingSlavesActive.withLabelValuesSet master (float64 status.2) }

/-- Lines 48-60: `Update`, from the state `g` of the vectors.  Returns the
error, the new state and the metrics sent on the channel. -/
def Update {F : Type} (float64 : Int → F) (fs : FS) (g : Gauges F) :
    Option IOError × Gauges F × List (Metric F) :=
  match readBondingStats fs sysfsNet with
  | (_, some err) => (some err, g, [])
  | (bondingStats, none) =>
    let g1 := setGauges float64 (bondingStats.getD []) g
    (none, g1,
      g1.bondingSlaves.collect "net_bonding_slaves".toList ++
        g1.bondingSlavesActive.collect "net_bonding_slaves_active".toList)

/-! ## More example trees -/

/-- A master whose slaves file names `eth0` twice. -/
def twiceSlaveFS : FS := fun p =>
  if p = "/sys/class/net/bonding_masters".toList then .ok "bond0\n".toList
  else if p = "/sys/class/net/bond0/bonding/slaves".toList then .ok "eth0 eth1 eth0\n".toList
  else if p = "/sys/class/net/bond0/lower_eth0/operstate".toList then .ok "up\n".toList
  else if p = "/sys/class/net/bond0/lower_eth1/operstate".toList then .ok "down\n".toList
  else .error (IOError.notExist p)

/-- A masters file that names `bond0` twice; `bond0` has one slave, which is up. -/
def twiceMasterFS : FS := fun p =>
  if p = "/sys/class/net/bonding_masters".toList then .ok "bond0 bond0\n".toList
  else if p = "/sys/class/net/bond0/bonding/slaves".toList then .ok "eth0\n".toList
  else if p = "/sys/class/net/bond0/lower_eth0/operstate".toList then .ok "up\n".toList
  else .error (IOError.notExist p)

/-- The example scenario after the removal of `bond0`: only `bond1` is left. -/
def removedFS : FS := fun p =>
  if p = "/sys/class/net/bonding_masters".toList then .ok "bond1".toList
  else if p = "/sys/class/net/bond1/bonding/slaves".toList then .ok []
  else .error (IOError.notExist p)

/-- A tree whose slaves file lists, after `eth0`, a name with path separators:
`path.Join` turns `bond0/lower_x/../slave_eth0/operstate` into
`bond0/slave_eth0/operstate`. -/
def crossedFS : FS := fun p =>
  if p = "/sys/class/net/bonding_masters".toList then .ok "bond0\n".toList
  else if p = "/sys/class/net/bond0/bonding/slaves".toList then
    .ok "eth0 x/../slave_eth0\n".toList
  else if p = "/sys/class/net/bond0/lower_eth0/operstate".toList then .ok "up\n".toList
  else if p = "/sys/class/net/bond0/slave_eth0/operstate".toList then .ok "up\n".toList
  else .error (IOError.notExist p)

/-- The tree `crossedFS` without `bond0/slave_eth0/operstate`. -/
def crossedGoneFS : FS := fun p =>
  if p = slavePath sysfsNet "bond0".toList "eth0".toList then .error (IOError.notExist p)
  else crossedFS p

/-- The error of the read of `bond1/slave_eth3/operstate` on `orphanFS`. -/
def orphanError : IOError :=
  IOError.notExist "/sys/class/net/bond1/slave_eth3/operstate".toList

/-- A tree without bonding masters: the masters file holds a newline. -/
def blankFS : FS := fun p =>
  if p = "/sys/class/net/bonding_masters".toList then .ok "\n".toList
  else .error (IOError.notExist p)

/-! ## Views of the results, without the read log -/

instance instDecidableEqExcept {ε α : Type} [DecidableEq ε] [DecidableEq α] :
    DecidableEq (Except ε α) := fun a b =>
  match a, b with
  | .ok x, .ok y => if h : x = y then isTrue (by rw [h]) else isFalse (by intro e; cases e; exact h rfl)
  | .error x, .error y =>
    if h : x = y then isTrue (by rw [h]) else isFalse (by intro e; cases e; exact h rfl)
  | .ok _, .error _ => isFalse (by intro e; cases e)
  | .error _, .ok _ => isFalse (by intro e; cases e)

/-- The state of `slave` as `readOperstate` finds it: the content under
`lower_`, or the outcome of the read under `slave_` when the first file does
not exist. -/
def operstate (fs : FS) (root master slave : Str) : Except IOError Str :=
  match fs (lowerPath root master slave) with
  | .ok data => .ok data
  | .error e =>
    if isNotExist (some e) then fs (slavePath root master slave) else .error e

/-- The counters after the loop over the slaves. -/
def countSlaves (fs : FS) (root master : Str) :
    List Str → Int × Int → Except IOError (Int × Int)
  | [], sstat => .ok sstat
  | slave :: rest, sstat =>
    match operstate fs root master slave with
    | .error e => .error e
    | .ok state =>
      countSlaves fs root master rest
        (sstat.1 + 1, if trimSpace state = "up".toList then sstat.2 + 1 else sstat.2)

/-- The counters of one master: its slaves file, then the loop over it. -/
def masterCounts (fs : FS) (root master : Str) : Except IOError (Int × Int) :=
  match fs (slavesPath root master) with
  | .error e => .error e
  | .ok slaves => countSlaves fs root master (fields slaves) (0, 0)

/-- The map after the loop over the masters. -/
def walk (fs : FS) (root : Str) : List Str → StatusMap → Except IOError StatusMap
  | [], status => .ok status
  | master :: rest, status =>
    match masterCounts fs root master with
    | .error e => .error e
    | .ok sstat => walk fs root rest (status.set master sstat)

/-! ## Vocabulary of the statements -/

/-- Reading `p` fails. -/
def unreadable (fs : FS) (p : Str) : Bool :=
  match fs p with
  | .ok _ => false
  | .error _ => true

/-- Reading `p` fails because `p` does not exist. -/
def missing (fs : FS) (p : Str) : Bool :=
  match fs p with
  | .ok _ => false
  | .error e => isNotExist (some e)

/-- The state of `slave` is readable and is `c`: under `lower_`, or under
`slave_` when the file under `lower_` does not exist. -/
def OperstateIs (fs : FS) (root master slave c : Str) : Prop :=
  fs (lowerPath root master slave) = .ok c ∨
    (missing fs (lowerPath root master slave) = true ∧ fs (slavePath root master slave) = .ok c)

instance instDecidableOperstateIs (fs : FS) (root master slave c : Str) :
    Decidable (OperstateIs fs root master slave c) := by
  unfold OperstateIs; infer_instance

/-- The state of `slave` cannot be read: the read under `lower_` fails with
another error than does-not-exist, or the file does not exist and the read
under `slave_` fails. -/
def OperstateFails (fs : FS) (root master slave : Str) : Prop :=
  (unreadable fs (lowerPath root master slave) = true ∧
      missing fs (lowerPath root master slave) = false) ∨
    (missing fs (lowerPath root master slave) = true ∧
      unreadable fs (slavePath root master slave) = true)

instance instDecidableOperstateFails (fs : FS) (root master slave : Str) :
    Decidable (OperstateFails fs root master slave) := by
  unfold OperstateFails; infer_instance

/-- The number of occurrences of the name `d` in the list `l`. -/
def occurrences (d : Str) (l : List Str) : Nat :=
  l.countP fun x => decide (x = d)

/-! ## Vocabulary of the path lemmas -/

/-- Each element followed by `/`. -/
def joinDir : List Str → Str
  | [] => []
  | a :: rest => a ++ '/' :: joinDir rest

/-- The directory part that `path.Join` gives to a further plain element put
after the elements `pre`: empty, or a cleaned path followed by `/`. -/
def dirOf (pre : List Str) : Str :=
  match dropEmpty pre with
  | [] => []
  | e :: rest =>
    (if (joinSlash (e :: rest)).head? == some '/' then ['/'] else []) ++
      joinDir (((splitSlash (joinSlash (e :: rest))).foldl
        (cleanStep ((joinSlash (e :: rest)).head? == some '/')) []).reverse)

/-- Empty, or ending in `/`. -/
def DirLike (d : Str) : Prop := d = [] ∨ ∃ d1 : Str, d = d1 ++ ['/']

/-- A path element that `path.Clean` keeps as it is: not empty, without `/`,
and neither `.` nor `..`. -/
def Plain (x : Str) : Prop := x ≠ [] ∧ '/' ∉ x ∧ x ≠ ['.'] ∧ x ≠ dotdot

instance instDecidablePlain (x : Str) : Decidable (Plain x) := by
  unfold Plain; infer_instance

/-- Every name listed in the slaves file of a listed master is free of `/`. -/
def slaveNamesPlain (fs : FS) (root : Str) : Bool :=
  match fs (mastersPath root) with
  | .error _ => true
  | .ok masters =>
    (fields masters).all fun m =>
      match fs (slavesPath root m) with
      | .error _ => true
      | .ok slaves => (fields slaves).all fun s => decide ('/' ∉ s)

/-! ## The views agree with the code -/

theorem readOperstate_fst (fs : FS) (root master slave : Str) :
    (readOperstate fs root master slave).1 =
      match operstate fs root master slave with
      | .ok data => (data, none)
      | .error e => ([], some e) := by
  unfold readOperstate operstate readFile
  cases h : fs (lowerPath root master slave) with
  | ok d => simp [isNotExist]
  | error e =>
    cases e with
    | notExist p => simp [isNotExist]
    | other p n => simp [isNotExist]

theorem slavesLoop_fst (fs : FS) (root master : Str) (slaves : List Str) :
    ∀ sstat, (slavesLoop fs root master slaves sstat).1 =
      countSlaves fs root master slaves sstat := by
  induction slaves with
  | nil => intro sstat; rfl
  | cons s rest ih =>
    intro sstat
    have h := readOperstate_fst fs root master s
    unfold slavesLoop countSlaves
    rcases hr : readOperstate fs root master s with ⟨⟨state, err⟩, log⟩
    rw [hr] at h
    cases ho : operstate fs root master s with
    | ok d =>
      rw [ho] at h
      simp only [Prod.mk.injEq] at h
      obtain ⟨h1, h2⟩ := h
      subst h1 h2
      simp only [ih]
    | error e =>
      rw [ho] at h
      simp only [Prod.mk.injEq] at h
      obtain ⟨h1, h2⟩ := h
      subst h1 h2
      rfl

theorem mastersLoop_fst (fs : FS) (root : Str) (masters : List Str) :
    ∀ status, (mastersLoop fs root masters status).1 = walk fs root masters status := by
  induction masters with
  | nil => intro status; rfl
  | cons m rest ih =>
    intro status
    unfold mastersLoop walk masterCounts readFile
    cases hs : fs (slavesPath root m) with
    | error e => rfl
    | ok cs =>
      simp only
      have h := slavesLoop_fst fs root m (fields cs) (0, 0)
      rcases hl : slavesLoop fs root m (fields cs) (0, 0) with ⟨r, log⟩
      rw [hl] at h
      simp only at h
      rw [← h]
      cases r with
      | error e => rfl
      | ok v => simp only [ih]

theorem readBondingStats_eq (fs : FS) (root : Str) :
    readBondingStats fs root =
      match fs (mastersPath root) with
      | .error e => (none, some e)
      | .ok masters =>
        match walk fs root (fields masters) [] with
        | .error e => (none, some e)
        | .ok status => (some status, none) := by
  unfold readBondingStats readBondingStatsLog readFile
  cases hm : fs (mastersPath root) with
  | error e => rfl
  | ok cm =>
    simp only
    have h := mastersLoop_fst fs root (fields cm) []
    rcases hl : mastersLoop fs root (fields cm) [] with ⟨r, log⟩
    rw [hl] at h
    simp only at h
    rw [← h]
    cases r with
    | error e => rfl
    | ok v => rfl

/-! ## The loop over the slaves -/

theorem countSlaves_ok (fs : FS) (root master : Str) (st : Str → Str) (slaves : List Str) :
    ∀ sstat : Int × Int,
      (∀ s ∈ slaves, operstate fs root master s = .ok (st s)) →
      countSlaves fs root master slaves sstat =
        .ok (sstat.1 + (slaves.length : Int),
          sstat.2 + ((slaves.countP fun s => decide (trimSpace (st s) = "up".toList) : Nat) : Int)) := by
  induction slaves with
  | nil => intro sstat _; simp [countSlaves]
  | cons s rest ih =>
    intro sstat h
    have hs := h s (List.mem_cons_self _ _)
    have hrest : ∀ x ∈ rest, operstate fs root master x = .ok (st x) :=
      fun x hx => h x (List.mem_cons_of_mem _ hx)
    unfold countSlaves
    rw [hs]
    simp only
    rw [ih _ hrest]
    by_cases hup : trimSpace (st s) = "up".toList
    · simp only [hup, if_true, List.length_cons, List.countP_cons, decide_True]
      congr 2
      all_goals (push_cast; ring)
    · simp only [hup, if_false, List.length_cons, List.countP_cons, decide_False]
      congr 2
      all_goals (push_cast; ring)

theorem countSlaves_error (fs : FS) (root master : Str) (slaves : List Str) :
    ∀ sstat : Int × Int, ∀ s ∈ slaves, ∀ e, operstate fs root master s = .error e →
      ∃ e1, countSlaves fs root master slaves sstat = .error e1 := by
  induction slaves with
  | nil => intro _ s hs; cases hs
  | cons a rest ih =>
    intro sstat s hs e he
    unfold countSlaves
    cases ha : operstate fs root master a with
    | error e1 => exact ⟨e1, rfl⟩
    | ok d =>
      simp only
      rcases List.mem_cons.mp hs with h | h
      · rw [h, ha] at he; cases he
      · exact ih _ s h e he

theorem countSlaves_ok_inv (fs : FS) (root master : Str) (slaves : List Str) :
    ∀ sstat v : Int × Int, countSlaves fs root master slaves sstat = .ok v →
      ∀ s ∈ slaves, ∃ c, operstate fs root master s = .ok c := by
  intro sstat v h s hs
  cases ho : operstate fs root master s with
  | ok c => exact ⟨c, rfl⟩
  | error e =>
    obtain ⟨e1, h1⟩ := countSlaves_error fs root master slaves sstat s hs e ho
    rw [h1] at h
    cases h

theorem countSlaves_bounds (fs : FS) (root master : Str) (slaves : List Str) :
    ∀ sstat v : Int × Int, countSlaves fs root master slaves sstat = .ok v →
      sstat.2 ≤ v.2 ∧ v.2 - sstat.2 ≤ v.1 - sstat.1 := by
  induction slaves with
  | nil =>
    intro sstat v h
    simp only [countSlaves, Except.ok.injEq] at h
    subst h
    simp
  | cons a rest ih =>
    intro sstat v h
    unfold countSlaves at h
    cases ha : operstate fs root master a with
    | error e1 => rw [ha] at h; cases h
    | ok d =>
      rw [ha] at h
      simp only at h
      have := ih _ _ h
      simp only at this
      split_ifs at this <;> omega

/-! ## The status map -/

theorem StatusMap.get?_set_self (m : StatusMap) (k : Str) (v : Int × Int) :
    (m.set k v).get? k = some v := by
  induction m with
  | nil => simp [StatusMap.set, StatusMap.get?]
  | cons a rest ih =>
    obtain ⟨k1, v1⟩ := a
    by_cases h : k1 = k
    · simp [StatusMap.set, StatusMap.get?, h]
    · simp [StatusMap.set, StatusMap.get?, h, ih]

theorem StatusMap.get?_set_ne (m : StatusMap) (k k1 : Str) (v : Int × Int) (h : k ≠ k1) :
    (m.set k v).get? k1 = m.get? k1 := by
  induction m with
  | nil => simp [StatusMap.set, StatusMap.get?, h]
  | cons a rest ih =>
    obtain ⟨k2, v2⟩ := a
    by_cases h2 : k2 = k
    · subst h2
      simp [StatusMap.set, StatusMap.get?, h]
    · simp [StatusMap.set, StatusMap.get?, h2, ih]

theorem StatusMap.set_of_not_mem (m : StatusMap) (k : Str) (v : Int × Int)
    (h : k ∉ m.map Prod.fst) : m.set k v = m ++ [(k, v)] := by
  induction m with
  | nil => rfl
  | cons a rest ih =>
    obtain ⟨k1, v1⟩ := a
    simp only [List.map_cons, List.mem_cons, not_or] at h
    have h1 : k1 ≠ k := fun e => h.1 e.symm
    simp [StatusMap.set, h1, ih h.2]

theorem StatusMap.mem_set (m : StatusMap) (k : Str) (v : Int × Int) (x : Str × (Int × Int))
    (hx : x ∈ m.set k v) : x ∈ m ∨ x = (k, v) := by
  induction m with
  | nil =>
    simp only [StatusMap.set, List.mem_singleton] at hx
    exact Or.inr hx
  | cons a rest ih =>
    obtain ⟨k1, v1⟩ := a
    by_cases h : k1 = k
    · simp only [StatusMap.set, h, if_true, List.mem_cons] at hx
      rcases hx with hx | hx
      · exact Or.inr hx
      · exact Or.inl (List.mem_cons_of_mem _ hx)
    · simp only [StatusMap.set, h, if_false, List.mem_cons] at hx
      rcases hx with hx | hx
      · exact Or.inl (hx ▸ List.mem_cons_self _ _)
      · rcases ih hx with h1 | h1
        · exact Or.inl (List.mem_cons_of_mem _ h1)
        · exact Or.inr h1

/-! ## The loop over the masters -/

theorem walk_ok (fs : FS) (root : Str) (val : Str → Int × Int) (masters : List Str) :
    ∀ status : StatusMap,
      (∀ m ∈ masters, masterCounts fs root m = .ok (val m)) →
      walk fs root masters status =
        .ok (masters.foldl (fun st m => StatusMap.set st m (val m)) status) := by
  induction masters with
  | nil => intro status _; rfl
  | cons m rest ih =>
    intro status h
    unfold walk
    rw [h m (List.mem_cons_self _ _)]
    simp only [List.foldl_cons]
    exact ih _ fun x hx => h x (List.mem_cons_of_mem _ hx)

theorem walk_error (fs : FS) (root : Str) (masters : List Str) :
    ∀ status : StatusMap, ∀ m ∈ masters, ∀ e, masterCounts fs root m = .error e →
      ∃ e1, walk fs root masters status = .error e1 := by
  induction masters with
  | nil => intro _ m hm; cases hm
  | cons a rest ih =>
    intro status m hm e he
    unfold walk
    cases ha : masterCounts fs root a with
    | error e1 => exact ⟨e1, rfl⟩
    | ok v =>
      simp only
      rcases List.mem_cons.mp hm with h | h
      · rw [h, ha] at he; cases he
      · exact ih _ m h e he

theorem walk_ok_inv (fs : FS) (root : Str) (masters : List Str) (status R : StatusMap)
    (h : walk fs root masters status = .ok R) :
    ∀ m ∈ masters, ∃ v, masterCounts fs root m = .ok v := by
  intro m hm
  cases hc : masterCounts fs root m with
  | ok v => exact ⟨v, rfl⟩
  | error e =>
    obtain ⟨e1, h1⟩ := walk_error fs root masters status m hm e hc
    rw [h1] at h
    cases h

theorem walk_get? (fs : FS) (root : Str) (masters : List Str) :
    ∀ status R : StatusMap, walk fs root masters status = .ok R →
      (∀ m ∈ masters, ∃ v, masterCounts fs root m = .ok v ∧ R.get? m = some v) ∧
      (∀ k, k ∉ masters → R.get? k = status.get? k) := by
  induction masters with
  | nil =>
    intro status R h
    simp only [walk, Except.ok.injEq] at h
    subst h
    exact ⟨fun m hm => (by cases hm), fun _ _ => rfl⟩
  | cons a rest ih =>
    intro status R h
    unfold walk at h
    cases ha : masterCounts fs root a with
    | error e1 => rw [ha] at h; cases h
    | ok v =>
      rw [ha] at h
      simp only at h
      obtain ⟨ih1, ih2⟩ := ih _ _ h
      refine ⟨?_, ?_⟩
      · intro m hm
        by_cases hr : m ∈ rest
        · exact ih1 m hr
        · rcases List.mem_cons.mp hm with h1 | h1
          · subst h1
            refine ⟨v, ha, ?_⟩
            rw [ih2 m hr, StatusMap.get?_set_self]
          · exact absurd h1 hr
      · intro k hk
        simp only [List.mem_cons, not_or] at hk
        rw [ih2 k hk.2, StatusMap.get?_set_ne _ _ _ _ (fun e => hk.1 e.symm)]

theorem walk_entries (fs : FS) (root : Str) (masters : List Str) :
    ∀ status R : StatusMap, walk fs root masters status = .ok R →
      ∀ x ∈ R, x ∈ status ∨ ∃ m ∈ masters, masterCounts fs root m = .ok x.2 ∧ x.1 = m := by
  induction masters with
  | nil =>
    intro status R h x hx
    simp only [walk, Except.ok.injEq] at h
    subst h
    exact Or.inl hx
  | cons a rest ih =>
    intro status R h x hx
    unfold walk at h
    cases ha : masterCounts fs root a with
    | error e1 => rw [ha] at h; cases h
    | ok v =>
      rw [ha] at h
      simp only at h
      rcases ih _ _ h x hx with h1 | ⟨m, hm, h2, h3⟩
      · rcases StatusMap.mem_set _ _ _ _ h1 with h4 | h4
        · exact Or.inl h4
        · refine Or.inr ⟨a, List.mem_cons_self _ _, ?_, ?_⟩
          · rw [h4]; exact ha
          · rw [h4]
      · exact Or.inr ⟨m, List.mem_cons_of_mem _ hm, h2, h3⟩

theorem foldl_set_fresh (val : Str → Int × Int) (masters : List Str) :
    ∀ status : StatusMap, masters.Nodup → (∀ m ∈ masters, m ∉ status.map Prod.fst) →
      masters.foldl (fun st m => StatusMap.set st m (val m)) status =
        status ++ masters.map fun m => (m, val m) := by
  induction masters with
  | nil => intro status _ _; simp
  | cons a rest ih =>
    intro status hnd hfresh
    rw [List.nodup_cons] at hnd
    simp only [List.foldl_cons, List.map_cons]
    rw [StatusMap.set_of_not_mem _ _ _ (hfresh a (List.mem_cons_self _ _))]
    rw [ih _ hnd.2]
    · simp
    · intro m hm
      simp only [List.map_append, List.map_cons, List.map_nil, List.mem_append,
        List.mem_singleton, not_or]
      refine ⟨hfresh m (List.mem_cons_of_mem _ hm), ?_⟩
      intro e
      exact hnd.1 (e ▸ hm)

/-! ## The read of one state -/

theorem operstate_ok_iff (fs : FS) (root master slave c : Str) :
    operstate fs root master slave = .ok c ↔ OperstateIs fs root master slave c := by
  unfold operstate OperstateIs missing
  cases h : fs (lowerPath root master slave) with
  | ok d => simp
  | error e =>
    by_cases hn : isNotExist (some e) = true
    · simp [hn]
    · simp [hn]

theorem operstate_error_iff (fs : FS) (root master slave : Str) :
    (∃ e, operstate fs root master slave = .error e) ↔ OperstateFails fs root master slave := by
  unfold operstate OperstateFails missing unreadable
  cases h : fs (lowerPath root master slave) with
  | ok d => simp
  | error e =>
    by_cases hn : isNotExist (some e) = true
    · simp only [hn, if_true, true_and, and_false, false_or, Bool.true_eq_false]
      cases h2 : fs (slavePath root master slave) with
      | ok d => simp
      | error e2 => simp
    · simp [hn]

theorem masterCounts_error_iff (fs : FS) (root master : Str) :
    (∃ e, masterCounts fs root master = .error e) ↔
      unreadable fs (slavesPath root master) = true ∨
        ∃ slaves, fs (slavesPath root master) = .ok slaves ∧
          ∃ s ∈ fields slaves, OperstateFails fs root master s := by
  unfold masterCounts unreadable
  cases h : fs (slavesPath root master) with
  | error e => simp
  | ok cs =>
    simp only [Bool.false_eq_true, false_or, Except.ok.injEq, exists_eq_left']
    constructor
    · rintro ⟨e, he⟩
      by_contra hno
      push_neg at hno
      have hall : ∀ s ∈ fields cs, ∃ c, operstate fs root master s = .ok c := by
        intro s hs
        cases ho : operstate fs root master s with
        | ok c => exact ⟨c, rfl⟩
        | error e1 =>
          exact absurd ((operstate_error_iff fs root master s).mp ⟨e1, ho⟩) (hno s hs)
      have hst : ∀ s ∈ fields cs, operstate fs root master s =
          .ok (match operstate fs root master s with | .ok c => c | .error _ => []) := by
        intro s hs
        obtain ⟨c, hc⟩ := hall s hs
        rw [hc]
      rw [countSlaves_ok fs root master _ (fields cs) (0, 0) hst] at he
      cases he
    · rintro ⟨s, hs, hf⟩
      obtain ⟨e, he⟩ := (operstate_error_iff fs root master s).mpr hf
      exact countSlaves_error fs root master (fields cs) (0, 0) s hs e he

theorem walk_error_iff (fs : FS) (root : Str) (masters : List Str) (status : StatusMap) :
    (∃ e, walk fs root masters status = .error e) ↔
      ∃ m ∈ masters, ∃ e, masterCounts fs root m = .error e := by
  constructor
  · rintro ⟨e, he⟩
    by_contra hno
    push_neg at hno
    have hval : ∀ m ∈ masters, masterCounts fs root m =
        .ok (match masterCounts fs root m with | .ok v => v | .error _ => (0, 0)) := by
      intro m hm
      cases hc : masterCounts fs root m with
      | ok v => rfl
      | error e1 => exact absurd hc (hno m hm e1)
    rw [walk_ok fs root _ masters status hval] at he
    cases he
  · rintro ⟨m, hm, e, he⟩
    exact walk_error fs root masters status m hm e he

theorem readBondingStats_of_masters_error (fs : FS) (root : Str) (e : IOError)
    (h : fs (mastersPath root) = .error e) : readBondingStats fs root = (none, some e) := by
  rw [readBondingStats_eq, h]

theorem readBondingStats_of_walk_error (fs : FS) (root masters : Str) (e : IOError)
    (h : fs (mastersPath root) = .ok masters)
    (hw : walk fs root (fields masters) [] = .error e) :
    readBondingStats fs root = (none, some e) := by
  rw [readBondingStats_eq, h]
  simp only [hw]

theorem readBondingStats_of_walk_ok (fs : FS) (root masters : Str) (R : StatusMap)
    (h : fs (mastersPath root) = .ok masters)
    (hw : walk fs root (fields masters) [] = .ok R) :
    readBondingStats fs root = (some R, none) := by
  rw [readBondingStats_eq, h]
  simp only [hw]

/-- The outcome of `readBondingStats` is a map without error or an error
without map. -/
theorem readBondingStats_cases (fs : FS) (root : Str) :
    (∃ R, readBondingStats fs root = (some R, none)) ∨
      (∃ e, readBondingStats fs root = (none, some e)) := by
  cases hm : fs (mastersPath root) with
  | error e => exact Or.inr ⟨e, readBondingStats_of_masters_error fs root e hm⟩
  | ok cm =>
    cases hw : walk fs root (fields cm) [] with
    | error e => exact Or.inr ⟨e, readBondingStats_of_walk_error fs root cm e hm hw⟩
    | ok R => exact Or.inl ⟨R, readBondingStats_of_walk_ok fs root cm R hm hw⟩

/-- A successful read went through the masters file and the whole walk. -/
theorem readBondingStats_ok_inv (fs : FS) (root : Str) (R : StatusMap)
    (h : (readBondingStats fs root).1 = some R) :
    ∃ masters, fs (mastersPath root) = .ok masters ∧
      walk fs root (fields masters) [] = .ok R := by
  cases hm : fs (mastersPath root) with
  | error e =>
    rw [readBondingStats_of_masters_error fs root e hm] at h
    cases h
  | ok cm =>
    cases hw : walk fs root (fields cm) [] with
    | error e =>
      rw [readBondingStats_of_walk_error fs root cm e hm hw] at h
      cases h
    | ok R1 =>
      rw [readBondingStats_of_walk_ok fs root cm R1 hm hw] at h
      simp only [Option.some.injEq] at h
      subst h
      exact ⟨cm, rfl, hw⟩

theorem missing_unreadable (fs : FS) (p : Str) (h : missing fs p = true) :
    unreadable fs p = true := by
  unfold missing at h
  unfold unreadable
  cases hp : fs p with
  | ok d => rw [hp] at h; cases h
  | error e => rfl

theorem unreadable_iff (fs : FS) (p : Str) : unreadable fs p = true ↔ ∃ e, fs p = .error e := by
  unfold unreadable
  cases hp : fs p with
  | ok d => simp
  | error e => simp

/-! ## `strings.Fields` on white space -/

theorem fieldsAux_spaces (s : Str) (h : ∀ c ∈ s, isSpace c = true) : fieldsAux s [] = [] := by
  induction s with
  | nil => rfl
  | cons c cs ih =>
    have hc := h c (List.mem_cons_self _ _)
    simp only [fieldsAux, hc, if_true]
    exact ih fun x hx => h x (List.mem_cons_of_mem _ hx)

theorem fields_spaces (s : Str) (h : ∀ c ∈ s, isSpace c = true) : fields s = [] :=
  fieldsAux_spaces s h

/-! ## The read log -/

theorem slavesLoop_cons (fs : FS) (root master slave : Str) (rest : List Str)
    (sstat : Int × Int) :
    slavesLoop fs root master (slave :: rest) sstat =
      match readOperstate fs root master slave with
      | ((_, some err), log) => (.error err, log)
      | ((state, none), log) =>
        ((slavesLoop fs root master rest
            (sstat.1 + 1, if trimSpace state = "up".toList then sstat.2 + 1 else sstat.2)).1,
          log ++ (slavesLoop fs root master rest
            (sstat.1 + 1, if trimSpace state = "up".toList then sstat.2 + 1 else sstat.2)).2) :=
  rfl

theorem mastersLoop_cons (fs : FS) (root master : Str) (rest : List Str) (status : StatusMap) :
    mastersLoop fs root (master :: rest) status =
      match readFile fs (slavesPath root master) with
      | (_, some err) => (.error err, [slavesPath root master])
      | (slaves, none) =>
        match slavesLoop fs root master (fields slaves) (0, 0) with
        | (.error err, log) => (.error err, slavesPath root master :: log)
        | (.ok sstat, log) =>
          ((mastersLoop fs root rest (status.set master sstat)).1,
            slavesPath root master :: log ++
              (mastersLoop fs root rest (status.set master sstat)).2) :=
  rfl

theorem slavesLoop_append (fs : FS) (root master : Str) (ss1 ss2 : List Str) :
    ∀ (sstat v : Int × Int) (log : List Str),
      slavesLoop fs root master ss1 sstat = (.ok v, log) →
      slavesLoop fs root master (ss1 ++ ss2) sstat =
        ((slavesLoop fs root master ss2 v).1, log ++ (slavesLoop fs root master ss2 v).2) := by
  induction ss1 with
  | nil =>
    intro sstat v log h
    simp only [slavesLoop, Prod.mk.injEq, Except.ok.injEq] at h
    obtain ⟨h1, h2⟩ := h
    subst h1 h2
    simp
  | cons s rest ih =>
    intro sstat v log h
    simp only [List.cons_append]
    rw [slavesLoop_cons] at h ⊢
    rcases hr : readOperstate fs root master s with ⟨⟨state, err⟩, l1⟩
    rw [hr] at h
    cases err with
    | some e => simp only [Prod.mk.injEq] at h; cases h.1
    | none =>
      simp only [Prod.mk.injEq] at h ⊢
      obtain ⟨h1, h2⟩ := h
      rcases hrest : slavesLoop fs root master rest
        (sstat.1 + 1, if trimSpace state = "up".toList then sstat.2 + 1 else sstat.2)
        with ⟨r1, l2⟩
      rw [hrest] at h1 h2
      simp only at h1 h2
      subst h1 h2
      rw [ih _ _ _ hrest]
      simp

theorem mastersLoop_append (fs : FS) (root : Str) (ms1 ms2 : List Str) :
    ∀ (status st : StatusMap) (log : List Str),
      mastersLoop fs root ms1 status = (.ok st, log) →
      mastersLoop fs root (ms1 ++ ms2) status =
        ((mastersLoop fs root ms2 st).1, log ++ (mastersLoop fs root ms2 st).2) := by
  induction ms1 with
  | nil =>
    intro status st log h
    simp only [mastersLoop, Prod.mk.injEq, Except.ok.injEq] at h
    obtain ⟨h1, h2⟩ := h
    subst h1 h2
    simp
  | cons m rest ih =>
    intro status st log h
    simp only [List.cons_append]
    rw [mastersLoop_cons] at h ⊢
    rcases hr : readFile fs (slavesPath root m) with ⟨slaves, err⟩
    rw [hr] at h
    cases err with
    | some e => simp only [Prod.mk.injEq] at h; cases h.1
    | none =>
      simp only at h ⊢
      rcases hl : slavesLoop fs root m (fields slaves) (0, 0) with ⟨r, l1⟩
      rw [hl] at h
      cases r with
      | error e => simp only [Prod.mk.injEq] at h; cases h.1
      | ok sstat =>
        simp only [Prod.mk.injEq] at h ⊢
        obtain ⟨h1, h2⟩ := h
        rcases hrest : mastersLoop fs root rest (StatusMap.set status m sstat) with ⟨r1, l2⟩
        rw [hrest] at h1 h2
        simp only at h1 h2
        subst h1 h2
        rw [ih _ _ _ hrest]
        simp

/-! ## `strings.TrimSpace` -/

theorem dropWhile_spaces_append (pre rest : Str) (h : ∀ c ∈ pre, isSpace c = true) :
    (pre ++ rest).dropWhile isSpace = rest.dropWhile isSpace := by
  induction pre with
  | nil => rfl
  | cons c cs ih =>
    have hc := h c (List.mem_cons_self _ _)
    simp only [List.cons_append, List.dropWhile_cons, hc, if_true]
    exact ih fun x hx => h x (List.mem_cons_of_mem _ hx)

theorem takeWhile_spaces (s : Str) : ∀ c ∈ s.takeWhile isSpace, isSpace c = true := by
  intro c hc
  induction s with
  | nil => simp at hc
  | cons a rest ih =>
    by_cases ha : isSpace a = true
    · simp only [List.takeWhile_cons, ha, if_true, List.mem_cons] at hc
      rcases hc with hc | hc
      · rw [hc]; exact ha
      · exact ih hc
    · simp [List.takeWhile_cons, ha] at hc

/-- The content trims to `up` exactly when it is `up` between two runs of
white space. -/
theorem trimSpace_eq_up_iff (c : Str) :
    trimSpace c = "up".toList ↔
      ∃ pre post : Str, (∀ x ∈ pre, isSpace x = true) ∧ (∀ x ∈ post, isSpace x = true) ∧
        c = pre ++ "up".toList ++ post := by
  constructor
  · intro h
    unfold trimSpace at h
    have h1 : ((c.dropWhile isSpace).reverse.dropWhile isSpace) = ("up".toList).reverse := by
      rw [← h, List.reverse_reverse]
    have h2 := List.takeWhile_append_dropWhile isSpace (c.dropWhile isSpace).reverse
    rw [h1] at h2
    have h3 : c.dropWhile isSpace =
        "up".toList ++ ((c.dropWhile isSpace).reverse.takeWhile isSpace).reverse := by
      have := congrArg List.reverse h2
      rw [List.reverse_append, List.reverse_reverse, List.reverse_reverse] at this
      exact this.symm
    refine ⟨c.takeWhile isSpace, ((c.dropWhile isSpace).reverse.takeWhile isSpace).reverse,
      takeWhile_spaces c, ?_, ?_⟩
    · intro x hx
      exact takeWhile_spaces _ x (List.mem_reverse.mp hx)
    · rw [List.append_assoc, ← h3, List.takeWhile_append_dropWhile]
  · rintro ⟨pre, post, hpre, hpost, rfl⟩
    unfold trimSpace
    rw [List.append_assoc, dropWhile_spaces_append _ _ hpre]
    have hu : ("up".toList ++ post).dropWhile isSpace = "up".toList ++ post := by
      simp [List.dropWhile_cons, isSpace]
    rw [hu, List.reverse_append,
      dropWhile_spaces_append _ _ (fun x hx => hpost x (List.mem_reverse.mp hx))]
    simp [List.dropWhile_cons, isSpace]

/-! ## Entries of the map -/

theorem StatusMap.mem_of_get? (m : StatusMap) (k : Str) (v : Int × Int)
    (h : m.get? k = some v) : (k, v) ∈ m := by
  induction m with
  | nil => simp [StatusMap.get?] at h
  | cons a rest ih =>
    obtain ⟨k1, v1⟩ := a
    by_cases hk : k1 = k
    · simp only [StatusMap.get?, hk, if_true, Option.some.injEq] at h
      rw [hk, h]
      exact List.mem_cons_self _ _
    · simp only [StatusMap.get?, hk, if_false] at h
      exact List.mem_cons_of_mem _ (ih h)

theorem masterCounts_bounds (fs : FS) (root master : Str) (v : Int × Int)
    (h : masterCounts fs root master = .ok v) : 0 ≤ v.2 ∧ v.2 ≤ v.1 := by
  unfold masterCounts at h
  cases hs : fs (slavesPath root master) with
  | error e => rw [hs] at h; cases h
  | ok cs =>
    rw [hs] at h
    simp only at h
    have := countSlaves_bounds fs root master (fields cs) (0, 0) v h
    simp only at this
    omega

/-! ## `path.Join` with plain last elements -/

theorem splitSlash_ne_nil (s : Str) : splitSlash s ≠ [] := by
  cases s with
  | nil => simp [splitSlash]
  | cons c cs =>
    unfold splitSlash
    by_cases h : c = '/'
    · simp [h]
    · simp only [h, if_false]
      cases splitSlash cs <;> simp

theorem splitSlash_cons (c : Char) (cs : Str) :
    splitSlash (c :: cs) =
      if c = '/' then [] :: splitSlash cs
      else
        match splitSlash cs with
        | [] => [[c]]
        | h :: t => (c :: h) :: t :=
  rfl

theorem splitSlash_append (a b : Str) :
    splitSlash (a ++ '/' :: b) = splitSlash a ++ splitSlash b := by
  induction a with
  | nil => simp [splitSlash]
  | cons c cs ih =>
    simp only [List.cons_append]
    rw [splitSlash_cons, splitSlash_cons c cs]
    by_cases h : c = '/'
    · simp only [h, if_true, ih, List.cons_append]
    · simp only [h, if_false, ih]
      cases hs : splitSlash cs with
      | nil => exact absurd hs (splitSlash_ne_nil cs)
      | cons x t => simp

theorem splitSlash_of_not_mem (x : Str) (h : '/' ∉ x) : splitSlash x = [x] := by
  induction x with
  | nil => rfl
  | cons c cs ih =>
    simp only [List.mem_cons, not_or] at h
    unfold splitSlash
    have hc : c ≠ '/' := fun e => h.1 e.symm
    simp only [hc, if_false, ih h.2]

theorem joinSlash_append_single (l : List Str) (hl : l ≠ []) (x : Str) :
    joinSlash (l ++ [x]) = joinSlash l ++ '/' :: x := by
  induction l with
  | nil => exact absurd rfl hl
  | cons a rest ih =>
    cases rest with
    | nil => simp [joinSlash]
    | cons b rest1 =>
      have := ih (by simp)
      simp only [List.cons_append] at this ⊢
      simp only [joinSlash, this, List.append_assoc, List.cons_append]

theorem joinSlash_eq_joinDir (l : List Str) (x : Str) :
    joinSlash (l ++ [x]) = joinDir l ++ x := by
  induction l with
  | nil => simp [joinSlash, joinDir]
  | cons a rest ih =>
    cases rest with
    | nil => simp [joinSlash, joinDir]
    | cons b rest1 =>
      simp only [List.cons_append] at ih ⊢
      simp only [joinSlash, joinDir, ih, List.append_assoc, List.cons_append]

theorem joinDir_append_single (l : List Str) (x : Str) :
    joinDir (l ++ [x]) = joinDir l ++ x ++ ['/'] := by
  induction l with
  | nil => simp [joinDir]
  | cons a rest ih => simp [joinDir, ih]

theorem joinDir_dirLike (l : List Str) : DirLike (joinDir l) := by
  induction l with
  | nil => exact Or.inl rfl
  | cons a rest ih =>
    right
    rcases ih with h | ⟨d, h⟩
    · exact ⟨a, by simp [joinDir, h]⟩
    · exact ⟨a ++ '/' :: d, by simp [joinDir, h]⟩

theorem cleanStep_plain (rooted : Bool) (stack : List Str) (x : Str) (h : Plain x) :
    cleanStep rooted stack x = x :: stack := by
  obtain ⟨h1, _, h3, h4⟩ := h
  unfold cleanStep
  simp [h1, h3, h4]

theorem dropEmpty_cons (a : Str) (rest : List Str) :
    dropEmpty (a :: rest) = if a = [] then dropEmpty rest else a :: rest :=
  rfl

theorem dropEmpty_append_single (pre : List Str) (x : Str) (hx : x ≠ []) :
    dropEmpty (pre ++ [x]) =
      match dropEmpty pre with
      | [] => [x]
      | e :: rest => e :: (rest ++ [x]) := by
  induction pre with
  | nil => simp [dropEmpty, hx]
  | cons a rest ih =>
    rw [List.cons_append, dropEmpty_cons, dropEmpty_cons]
    by_cases ha : a = []
    · simp only [ha, if_true, ih]
    · simp only [ha, if_false]

theorem dropEmpty_head_ne (pre : List Str) (e : Str) (rest : List Str)
    (h : dropEmpty pre = e :: rest) : e ≠ [] := by
  induction pre with
  | nil => simp [dropEmpty] at h
  | cons a l ih =>
    by_cases ha : a = []
    · simp only [dropEmpty, ha, if_true] at h
      exact ih h
    · simp only [dropEmpty, ha, if_false, List.cons.injEq] at h
      rw [← h.1]
      exact ha

theorem joinSlash_head (e : Str) (rest : List Str) (he : e ≠ []) :
    joinSlash (e :: rest) ≠ [] ∧ (joinSlash (e :: rest)).head? = e.head? := by
  cases rest with
  | nil => exact ⟨by simpa [joinSlash] using he, by simp [joinSlash]⟩
  | cons b l =>
    cases e with
    | nil => exact absurd rfl he
    | cons c cs => simp [joinSlash]

theorem plain_head (x : Str) (h : Plain x) : (x.head? == some '/') = false := by
  obtain ⟨h1, h2, _, _⟩ := h
  cases x with
  | nil => exact absurd rfl h1
  | cons c cs =>
    simp only [List.mem_cons, not_or] at h2
    have hc : c ≠ '/' := fun e => h2.1 e.symm
    simp [hc]

theorem clean_plain (x : Str) (h : Plain x) : clean x = x := by
  unfold clean
  simp only [plain_head x h, splitSlash_of_not_mem x h.2.1, List.foldl_cons, List.foldl_nil,
    cleanStep_plain _ _ x h, Bool.false_eq_true, if_false]
  simp [joinSlash]

theorem clean_append_plain (p x : Str) (hp : p ≠ []) (h : Plain x) :
    clean (p ++ '/' :: x) =
      (if p.head? == some '/' then ['/'] else []) ++
        joinDir (((splitSlash p).foldl (cleanStep (p.head? == some '/')) []).reverse) ++ x := by
  have hh : (p ++ '/' :: x).head? = p.head? := by
    cases p with
    | nil => exact absurd rfl hp
    | cons c cs => rfl
  unfold clean
  simp only [hh, splitSlash_append, splitSlash_of_not_mem x h.2.1, List.foldl_append,
    List.foldl_cons, List.foldl_nil, cleanStep_plain _ _ x h, List.reverse_cons,
    joinSlash_eq_joinDir]
  by_cases hr : (p.head? == some '/') = true
  · simp [hr]
  · simp [hr]

theorem join_append_plain (pre : List Str) (x : Str) (h : Plain x) :
    join (pre ++ [x]) = dirOf pre ++ x := by
  unfold join dirOf
  rw [dropEmpty_append_single pre x h.1]
  cases hd : dropEmpty pre with
  | nil => simp only [List.nil_append]; exact clean_plain x h
  | cons e rest =>
    simp only
    have he := dropEmpty_head_ne pre e rest hd
    have hj : joinSlash (e :: (rest ++ [x])) = joinSlash (e :: rest) ++ '/' :: x := by
      have := joinSlash_append_single (e :: rest) (by simp) x
      simpa using this
    rw [hj, clean_append_plain _ x (joinSlash_head e rest he).1 h]

theorem dirOf_append_plain (pre : List Str) (x : Str) (h : Plain x) :
    dirOf (pre ++ [x]) = dirOf pre ++ x ++ ['/'] := by
  unfold dirOf
  rw [dropEmpty_append_single pre x h.1]
  cases hd : dropEmpty pre with
  | nil =>
    simp only [List.nil_append]
    have hj : joinSlash [x] = x := rfl
    simp only [hj, plain_head x h, splitSlash_of_not_mem x h.2.1, List.foldl_cons,
      List.foldl_nil, cleanStep_plain _ _ x h, Bool.false_eq_true, if_false]
    simp [joinDir]
  | cons e rest =>
    simp only
    have he := dropEmpty_head_ne pre e rest hd
    have hj : joinSlash (e :: (rest ++ [x])) = joinSlash (e :: rest) ++ '/' :: x := by
      have := joinSlash_append_single (e :: rest) (by simp) x
      simpa using this
    have hh : (joinSlash (e :: rest) ++ '/' :: x).head? = (joinSlash (e :: rest)).head? := by
      have hne := (joinSlash_head e rest he).1
      cases hq : joinSlash (e :: rest) with
      | nil => exact absurd hq hne
      | cons c cs => rfl
    rw [hj]
    simp only [hh, splitSlash_append, splitSlash_of_not_mem x h.2.1, List.foldl_append,
      List.foldl_cons, List.foldl_nil, cleanStep_plain _ _ x h, List.reverse_cons,
      joinDir_append_single, List.append_assoc]

theorem dirOf_dirLike (pre : List Str) : DirLike (dirOf pre) := by
  unfold dirOf
  cases dropEmpty pre with
  | nil => exact Or.inl rfl
  | cons e rest =>
    simp only
    rcases joinDir_dirLike (((splitSlash (joinSlash (e :: rest))).foldl
        (cleanStep ((joinSlash (e :: rest)).head? == some '/')) []).reverse) with h | ⟨d, h⟩
    · rw [h]
      by_cases hr : ((joinSlash (e :: rest)).head? == some '/') = true
      · exact Or.inr ⟨[], by simp [hr]⟩
      · exact Or.inl (by simp [hr])
    · rw [h]
      exact Or.inr ⟨_, (List.append_assoc _ _ _).symm⟩

theorem takeWhile_append_stop (q : Char → Bool) (l rest : Str) (hl : ∀ c ∈ l, q c = true)
    (hrest : rest = [] ∨ ∃ c t, rest = c :: t ∧ q c = false) :
    (l ++ rest).takeWhile q = l := by
  induction l with
  | nil =>
    rcases hrest with h | ⟨c, t, h, hc⟩
    · simp [h]
    · simp [h, List.takeWhile_cons, hc]
  | cons a t ih =>
    have ha := hl a (List.mem_cons_self _ _)
    simp only [List.cons_append, List.takeWhile_cons, ha, if_true]
    rw [ih fun c hc => hl c (List.mem_cons_of_mem _ hc)]

/-- The part after the last `/`. -/
theorem last_segment (d x : Str) (hd : DirLike d) (hx : '/' ∉ x) :
    ((d ++ x).reverse.takeWhile fun c => decide (c ≠ '/')).reverse = x := by
  rw [List.reverse_append, takeWhile_append_stop, List.reverse_reverse]
  · intro c hc
    have : c ∈ x := List.mem_reverse.mp hc
    simp only [ne_eq, decide_not, Bool.not_eq_eq_eq_not, Bool.not_true, decide_eq_false_iff_not]
    intro e
    exact hx (e ▸ this)
  · rcases hd with h | ⟨d1, h⟩
    · exact Or.inl (by simp [h])
    · exact Or.inr ⟨'/', d1.reverse, by simp [h], by simp⟩

theorem append_unique (d1 d2 x y : Str) (h1 : DirLike d1) (h2 : DirLike d2)
    (hx : '/' ∉ x) (hy : '/' ∉ y) (h : d1 ++ x = d2 ++ y) : d1 = d2 ∧ x = y := by
  have hxy : x = y := by
    rw [← last_segment d1 x h1 hx, ← last_segment d2 y h2 hy, h]
  subst hxy
  exact ⟨List.append_cancel_right h, rfl⟩

/-! ## The paths of the walk -/

theorem plain_prefixed (pfx s : Str) (hp : Plain pfx) (h2 : 2 < pfx.length) (hs : '/' ∉ s) :
    Plain (pfx ++ s) := by
  obtain ⟨p1, p2, _, _⟩ := hp
  refine ⟨by simp [p1], ?_, ?_, ?_⟩
  · simp only [List.mem_append, not_or]
    exact ⟨p2, hs⟩
  · intro e
    have := congrArg List.length e
    simp only [List.length_append, List.length_singleton] at this
    omega
  · intro e
    have := congrArg List.length e
    simp only [List.length_append, dotdot, List.length_cons, List.length_nil] at this
    omega

theorem mastersPath_form (root : Str) :
    mastersPath root = dirOf [root] ++ "bonding_masters".toList :=
  join_append_plain [root] _ (by decide)

theorem slavesPath_form (root m : Str) :
    slavesPath root m = dirOf [root, m, "bonding".toList] ++ "slaves".toList :=
  join_append_plain [root, m, "bonding".toList] _ (by decide)

theorem statePath_form (root m x : Str) (hx : Plain x) :
    join [root, m, x, "operstate".toList] =
      dirOf [root, m] ++ x ++ ['/'] ++ "operstate".toList := by
  have h1 := join_append_plain [root, m, x] "operstate".toList (by decide)
  have h2 := dirOf_append_plain [root, m] x hx
  simp only [List.cons_append, List.nil_append] at h1 h2
  rw [h1, h2]

theorem statePath_eq_iff (root m m0 x x0 : Str) (hx : Plain x) (hx0 : Plain x0) :
    join [root, m, x, "operstate".toList] = join [root, m0, x0, "operstate".toList] ↔
      dirOf [root, m] = dirOf [root, m0] ∧ x = x0 := by
  rw [statePath_form root m x hx, statePath_form root m0 x0 hx0]
  constructor
  · intro h
    have h1 := List.append_cancel_right (List.append_cancel_right h)
    exact append_unique _ _ _ _ (dirOf_dirLike _) (dirOf_dirLike _) hx.2.1 hx0.2.1 h1
  · rintro ⟨h1, h2⟩
    rw [h1, h2]

theorem statePath_dir (root m x : Str) :
    join [root, m, x, "operstate".toList] = dirOf [root, m, x] ++ "operstate".toList := by
  have h1 := join_append_plain [root, m, x] "operstate".toList (by decide)
  simpa using h1

theorem mastersPath_ne_statePath (root m x : Str) :
    mastersPath root ≠ join [root, m, x, "operstate".toList] := by
  rw [mastersPath_form, statePath_dir root m x]
  intro h
  have := (append_unique _ _ _ _ (dirOf_dirLike _) (dirOf_dirLike _) (by decide) (by decide) h).2
  exact absurd this (by decide)

theorem slavesPath_ne_statePath (root m1 m x : Str) :
    slavesPath root m1 ≠ join [root, m, x, "operstate".toList] := by
  rw [slavesPath_form, statePath_dir root m x]
  intro h
  have := (append_unique _ _ _ _ (dirOf_dirLike _) (dirOf_dirLike _) (by decide) (by decide) h).2
  exact absurd this (by decide)

theorem plain_lower (s : Str) (hs : '/' ∉ s) : Plain ("lower_".toList ++ s) :=
  plain_prefixed _ s (by decide) (by decide) hs

theorem plain_slave (s : Str) (hs : '/' ∉ s) : Plain ("slave_".toList ++ s) :=
  plain_prefixed _ s (by decide) (by decide) hs

theorem lowerPath_eq_iff (root m m0 s s0 : Str) (hs : '/' ∉ s) (hs0 : '/' ∉ s0) :
    lowerPath root m s = lowerPath root m0 s0 ↔ dirOf [root, m] = dirOf [root, m0] ∧ s = s0 := by
  unfold lowerPath
  rw [statePath_eq_iff root m m0 _ _ (plain_lower s hs) (plain_lower s0 hs0)]
  simp

theorem slavePath_eq_iff (root m m0 s s0 : Str) (hs : '/' ∉ s) (hs0 : '/' ∉ s0) :
    slavePath root m s = slavePath root m0 s0 ↔ dirOf [root, m] = dirOf [root, m0] ∧ s = s0 := by
  unfold slavePath
  rw [statePath_eq_iff root m m0 _ _ (plain_slave s hs) (plain_slave s0 hs0)]
  simp

theorem lowerPath_ne_slavePath (root m m0 s s0 : Str) (hs : '/' ∉ s) (hs0 : '/' ∉ s0) :
    lowerPath root m s ≠ slavePath root m0 s0 := by
  unfold lowerPath slavePath
  rw [Ne, statePath_eq_iff root m m0 _ _ (plain_lower s hs) (plain_slave s0 hs0)]
  rintro ⟨_, h⟩
  simp at h

/-! ## Two trees that differ in the place of one state -/

theorem operstate_moved (A B : FS) (root m0 s0 c : Str) (hs0 : '/' ∉ s0)
    (hA : A (lowerPath root m0 s0) = .ok c)
    (hBl : missing B (lowerPath root m0 s0) = true)
    (hBs : B (slavePath root m0 s0) = .ok c)
    (hsame : ∀ p, p ≠ lowerPath root m0 s0 → p ≠ slavePath root m0 s0 → B p = A p)
    (m s : Str) (hs : '/' ∉ s) :
    operstate B root m s = operstate A root m s := by
  by_cases hsm : dirOf [root, m] = dirOf [root, m0] ∧ s = s0
  · have hL := (lowerPath_eq_iff root m m0 s s0 hs hs0).mpr hsm
    have hS := (slavePath_eq_iff root m m0 s s0 hs hs0).mpr hsm
    unfold operstate
    rw [hL, hS, hA]
    unfold missing at hBl
    cases hb : B (lowerPath root m0 s0) with
    | ok d => rw [hb] at hBl; cases hBl
    | error e =>
      rw [hb] at hBl
      simp only at hBl
      simp only [hBl, if_true, hBs]
  · have hL : lowerPath root m s ≠ lowerPath root m0 s0 :=
      fun e => hsm ((lowerPath_eq_iff root m m0 s s0 hs hs0).mp e)
    have hS : slavePath root m s ≠ slavePath root m0 s0 :=
      fun e => hsm ((slavePath_eq_iff root m m0 s s0 hs hs0).mp e)
    have hLS := lowerPath_ne_slavePath root m m0 s s0 hs hs0
    have hSL : slavePath root m s ≠ lowerPath root m0 s0 :=
      fun e => lowerPath_ne_slavePath root m0 m s0 s hs0 hs e.symm
    unfold operstate
    rw [hsame _ hL hLS, hsame _ hSL hS]

theorem countSlaves_congr (A B : FS) (root m : Str) (slaves : List Str) :
    ∀ sstat : Int × Int,
      (∀ s ∈ slaves, operstate B root m s = operstate A root m s) →
      countSlaves B root m slaves sstat = countSlaves A root m slaves sstat := by
  induction slaves with
  | nil => intro _ _; rfl
  | cons s rest ih =>
    intro sstat h
    unfold countSlaves
    rw [h s (List.mem_cons_self _ _)]
    cases operstate A root m s with
    | error e => rfl
    | ok d => exact ih _ fun x hx => h x (List.mem_cons_of_mem _ hx)

theorem walk_congr (A B : FS) (root : Str) (masters : List Str) :
    ∀ status : StatusMap,
      (∀ m ∈ masters, masterCounts B root m = masterCounts A root m) →
      walk B root masters status = walk A root masters status := by
  induction masters with
  | nil => intro _ _; rfl
  | cons m rest ih =>
    intro status h
    unfold walk
    rw [h m (List.mem_cons_self _ _)]
    cases masterCounts A root m with
    | error e => rfl
    | ok v => exact ih _ fun x hx => h x (List.mem_cons_of_mem _ hx)

theorem slaveNamesPlain_spec (fs : FS) (root masters m slaves s : Str)
    (h : slaveNamesPlain fs root = true)
    (hm : fs (mastersPath root) = .ok masters) (hmem : m ∈ fields masters)
    (hs : fs (slavesPath root m) = .ok slaves) (hsm : s ∈ fields slaves) : '/' ∉ s := by
  unfold slaveNamesPlain at h
  rw [hm] at h
  simp only [List.all_eq_true] at h
  have h1 := h m hmem
  rw [hs] at h1
  simp only [List.all_eq_true, decide_eq_true_eq] at h1
  exact h1 s hsm

/-! ## Properties of `readBondingStats` -/

/-- C1: when the masters file is readable and lists pairwise distinct masters,
every listed master has a readable slaves file and every listed slave a
readable state (under `lower_`, or under `slave_` when the file under `lower_`
does not exist), the read succeeds and the map has exactly one entry per
listed master: the number of names in its slaves file and the number of those
whose trimmed state is `up`. -/
theorem readBondingStats_counts (fs : FS) (root masters : Str) (slaves : Str → Str)
    (state : Str → Str → Str)
    (hm : fs (mastersPath root) = .ok masters)
    (hnd : (fields masters).Nodup)
    (hs : ∀ m ∈ fields masters, fs (slavesPath root m) = .ok (slaves m))
    (ho : ∀ m ∈ fields masters, ∀ s ∈ fields (slaves m),
      OperstateIs fs root m s (state m s)) :
    readBondingStats fs root =
      (some ((fields masters).map fun m =>
        (m, (((fields (slaves m)).length : Int),
          (((fields (slaves m)).countP fun s =>
            decide (trimSpace (state m s) = "up".toList) : Nat) : Int)))), none) ∧
    ∀ R, (readBondingStats fs root).1 = some R → R.length = (fields masters).length := by
  have hval : ∀ m ∈ fields masters, masterCounts fs root m =
      .ok (((fields (slaves m)).length : Int),
        (((fields (slaves m)).countP fun s =>
          decide (trimSpace (state m s) = "up".toList) : Nat) : Int)) := by
    intro m hmem
    unfold masterCounts
    rw [hs m hmem]
    simp only
    rw [countSlaves_ok fs root m (state m) (fields (slaves m)) (0, 0)
      (fun s hsm => (operstate_ok_iff fs root m s _).mpr (ho m hmem s hsm))]
    simp
  have hw := walk_ok fs root _ (fields masters) [] hval
  rw [foldl_set_fresh _ _ [] hnd (by simp)] at hw
  simp only [List.nil_append] at hw
  have hr := readBondingStats_of_walk_ok fs root masters _ hm hw
  refine ⟨hr, ?_⟩
  intro R hR
  rw [hr] at hR
  simp only [Option.some.injEq] at hR
  rw [← hR, List.length_map]

/-- The example scenario: `bond0` with `eth0` up and `eth1` down, `bond1`
without slaves. -/
theorem readBondingStats_counts_example :
    readBondingStats exampleFS sysfsNet =
      (some [("bond0".toList, (2, 1)), ("bond1".toList, (0, 0))], none) :=
  (readBondingStats_counts exampleFS sysfsNet "bond0 bond1".toList
    (fun m => if m = "bond0".toList then "eth0 eth1".toList else [])
    (fun _ s => if s = "eth0".toList then "up".toList else "down".toList)
    (by decide) (by decide) (by decide) (by decide)).1.trans (by decide)

/-- C2: the read fails exactly when the masters file is unreadable, or the
slaves file of a listed master is unreadable, or the state of a listed slave
cannot be read (another error than does-not-exist under `lower_`, or no file
under `lower_` and a failed read under `slave_`); otherwise it returns a map
and no error. -/
theorem readBondingStats_fails_iff (fs : FS) (root : Str) :
    ((readBondingStats fs root).2 ≠ none ↔
      (unreadable fs (mastersPath root) = true ∨
        (∃ masters, fs (mastersPath root) = .ok masters ∧
          ∃ m ∈ fields masters, unreadable fs (slavesPath root m) = true) ∨
        (∃ masters, fs (mastersPath root) = .ok masters ∧
          ∃ m ∈ fields masters, ∃ slaves, fs (slavesPath root m) = .ok slaves ∧
            ∃ s ∈ fields slaves, OperstateFails fs root m s))) ∧
    ((readBondingStats fs root).2 = none → ∃ R, readBondingStats fs root = (some R, none)) := by
  constructor
  · cases hm : fs (mastersPath root) with
    | error e =>
      rw [readBondingStats_of_masters_error fs root e hm]
      simp [unreadable, hm]
    | ok cm =>
      have hu : unreadable fs (mastersPath root) = false := by simp [unreadable, hm]
      simp only [hu, Bool.false_eq_true, false_or, Except.ok.injEq, exists_eq_left']
      cases hw : walk fs root (fields cm) [] with
      | error e =>
        rw [readBondingStats_of_walk_error fs root cm e hm hw]
        simp only [ne_eq, reduceCtorEq, not_false_eq_true, true_iff]
        obtain ⟨m, hmem, e1, he1⟩ := (walk_error_iff fs root (fields cm) []).mp ⟨e, hw⟩
        rcases (masterCounts_error_iff fs root m).mp ⟨e1, he1⟩ with h | ⟨cs, hcs, s, hsm, hf⟩
        · exact Or.inl ⟨m, hmem, h⟩
        · exact Or.inr ⟨m, hmem, cs, hcs, s, hsm, hf⟩
      | ok R =>
        rw [readBondingStats_of_walk_ok fs root cm R hm hw]
        simp only [ne_eq, not_true_eq_false, false_iff, not_or, not_exists, not_and]
        have hno : ¬ ∃ m ∈ fields cm, ∃ e, masterCounts fs root m = .error e := by
          intro h
          obtain ⟨e, he⟩ := (walk_error_iff fs root (fields cm) []).mpr h
          rw [he] at hw
          cases hw
        constructor
        · intro m hmem hun
          exact hno ⟨m, hmem, (masterCounts_error_iff fs root m).mpr (Or.inl hun)⟩
        · intro m hmem cs hcs s hsm hf
          exact hno ⟨m, hmem,
            (masterCounts_error_iff fs root m).mpr (Or.inr ⟨cs, hcs, s, hsm, hf⟩)⟩
  · intro h
    rcases readBondingStats_cases fs root with hR | ⟨e, he⟩
    · exact hR
    · rw [he] at h
      cases h

/-- C3: the read is all-or-nothing: with an error there is no map, and with a
map there is no error. -/
theorem readBondingStats_all_or_nothing (fs : FS) (root : Str) :
    ((readBondingStats fs root).2 ≠ none → (readBondingStats fs root).1 = none) ∧
      ((readBondingStats fs root).1 ≠ none → (readBondingStats fs root).2 = none) := by
  rcases readBondingStats_cases fs root with ⟨R, hR⟩ | ⟨e, he⟩
  · rw [hR]; simp
  · rw [he]; simp

/-- C4: when the masters file cannot be read, with error `e`, the read returns
no map and exactly `e`, and the masters file is the only file read. -/
theorem readBondingStats_masters_unreadable (fs : FS) (root : Str) (e : IOError)
    (h : fs (mastersPath root) = .error e) :
    readBondingStats fs root = (none, some e) ∧
      readBondingStatsReads fs root = [mastersPath root] := by
  unfold readBondingStats readBondingStatsReads readBondingStatsLog readFile
  rw [h]
  exact ⟨rfl, rfl⟩

/-- On a tree without `bonding_masters` the read returns the does-not-exist
error of that file and reads nothing else. -/
theorem readBondingStats_masters_unreadable_example :
    readBondingStats (fun p => .error (IOError.notExist p)) sysfsNet =
        (none, some (IOError.notExist "/sys/class/net/bonding_masters".toList)) ∧
      readBondingStatsReads (fun p => .error (IOError.notExist p)) sysfsNet =
        ["/sys/class/net/bonding_masters".toList] :=
  readBondingStats_masters_unreadable (fun p => .error (IOError.notExist p)) sysfsNet
    (IOError.notExist "/sys/class/net/bonding_masters".toList) (by decide)

/-- C5: when a listed slave of a listed master has a state file neither under
`lower_` nor under `slave_`, the read fails and returns no map, wherever the
master and the slave stand in their lists. -/
theorem readBondingStats_state_missing (fs : FS) (root masters m slaves s : Str)
    (hm : fs (mastersPath root) = .ok masters) (hmem : m ∈ fields masters)
    (hs : fs (slavesPath root m) = .ok slaves) (hsm : s ∈ fields slaves)
    (hl : missing fs (lowerPath root m s) = true)
    (hf : missing fs (slavePath root m s) = true) :
    (readBondingStats fs root).1 = none ∧ (readBondingStats fs root).2 ≠ none := by
  have h1 : ∃ e, masterCounts fs root m = .error e :=
    (masterCounts_error_iff fs root m).mpr
      (Or.inr ⟨slaves, hs, s, hsm, Or.inr ⟨hl, missing_unreadable fs _ hf⟩⟩)
  obtain ⟨e, he⟩ := (walk_error_iff fs root (fields masters) []).mpr ⟨m, hmem, h1⟩
  rw [readBondingStats_of_walk_error fs root masters e hm he]
  simp

/-- The slave `eth3` of the second master `bond1` has no state file: the read
fails although `bond0` and `eth2` are well formed. -/
theorem readBondingStats_state_missing_example :
    (readBondingStats orphanFS sysfsNet).1 = none ∧
      (readBondingStats orphanFS sysfsNet).2 ≠ none :=
  readBondingStats_state_missing orphanFS sysfsNet "bond0 bond1\n".toList "bond1".toList
    "eth2 eth3\n".toList "eth3".toList (by decide) (by decide) (by decide) (by decide)
    (by decide) (by decide)

/-- C6: fallback equivalence.  With slave names free of path separators, a
tree `A` holding the state `c` of the slave `s` of `m` under `lower_` and a tree `B`
that is identical except that this file does not exist and the file under
`slave_` holds `c` give the same outcome of the read: the same map or the same
failure. -/
theorem readBondingStats_fallback_equivalence (A B : FS) (root m s c : Str)
    (hs : '/' ∉ s) (hnames : slaveNamesPlain A root = true)
    (hA : A (lowerPath root m s) = .ok c)
    (hBl : missing B (lowerPath root m s) = true)
    (hBs : B (slavePath root m s) = .ok c)
    (hsame : ∀ p, p ≠ lowerPath root m s → p ≠ slavePath root m s → B p = A p) :
    readBondingStats B root = readBondingStats A root := by
  have hmp : B (mastersPath root) = A (mastersPath root) :=
    hsame _ (mastersPath_ne_statePath root m _) (mastersPath_ne_statePath root m _)
  have hsp : ∀ m1, B (slavesPath root m1) = A (slavesPath root m1) := fun m1 =>
    hsame _ (slavesPath_ne_statePath root m1 m _) (slavesPath_ne_statePath root m1 m _)
  rw [readBondingStats_eq, readBondingStats_eq, hmp]
  cases hm : A (mastersPath root) with
  | error e => rfl
  | ok masters =>
    simp only
    have hw : walk B root (fields masters) [] = walk A root (fields masters) [] := by
      apply walk_congr
      intro m1 hm1
      unfold masterCounts
      rw [hsp m1]
      cases hsl : A (slavesPath root m1) with
      | error e => rfl
      | ok slaves =>
        simp only
        apply countSlaves_congr
        intro s1 hs1
        exact operstate_moved A B root m s c hs hA hBl hBs hsame m1 s1
          (slaveNamesPlain_spec A root masters m1 slaves s1 hnames hm hm1 hsl hs1)
    rw [hw]

/-- The example scenario with the state of `eth0` under `slave_eth0` gives the
map of the example scenario. -/
theorem readBondingStats_fallback_equivalence_example :
    readBondingStats fallbackFS sysfsNet = readBondingStats exampleFS sysfsNet :=
  readBondingStats_fallback_equivalence exampleFS fallbackFS sysfsNet "bond0".toList
    "eth0".toList "up".toList (by decide) (by decide) (by decide) (by decide) (by decide)
    (fun p h1 h2 => by simp only [fallbackFS, if_neg h1, if_neg h2])

/-- C7: when the read of a listed slave's state under `lower_` fails with an
error `e` other than does-not-exist, after a walk without failure up to that
slave, the read fails with `e` and the failed read is the last one: the file
under `slave_` is not consulted for that slave, whatever it holds. -/
theorem readBondingStats_no_fallback (fs : FS) (root masters m slaves s : Str)
    (ms1 ms2 ss1 ss2 : List Str) (st : StatusMap) (v : Int × Int) (log1 log2 : List Str)
    (e : IOError)
    (hm : fs (mastersPath root) = .ok masters)
    (hms : fields masters = ms1 ++ m :: ms2)
    (hpre : mastersLoop fs root ms1 [] = (.ok st, log1))
    (hs : fs (slavesPath root m) = .ok slaves)
    (hss : fields slaves = ss1 ++ s :: ss2)
    (hspre : slavesLoop fs root m ss1 (0, 0) = (.ok v, log2))
    (hl : fs (lowerPath root m s) = .error e)
    (hne : isNotExist (some e) = false) :
    readBondingStats fs root = (none, some e) ∧
      readBondingStatsReads fs root =
        mastersPath root :: (log1 ++ slavesPath root m :: (log2 ++ [lowerPath root m s])) ∧
      readOperstate fs root m s = (([], some e), [lowerPath root m s]) := by
  have hop : readOperstate fs root m s = (([], some e), [lowerPath root m s]) := by
    unfold readOperstate readFile
    rw [hl]
    simp only [hne, Bool.false_eq_true, if_false]
  have hsl : slavesLoop fs root m (fields slaves) (0, 0) =
      (.error e, log2 ++ [lowerPath root m s]) := by
    rw [hss, slavesLoop_append fs root m ss1 (s :: ss2) (0, 0) v log2 hspre, slavesLoop_cons,
      hop]
  have hml : mastersLoop fs root (fields masters) [] =
      (.error e, log1 ++ slavesPath root m :: (log2 ++ [lowerPath root m s])) := by
    rw [hms, mastersLoop_append fs root ms1 (m :: ms2) [] st log1 hpre, mastersLoop_cons]
    unfold readFile
    rw [hs]
    simp only [hsl]
  refine ⟨?_, ?_, hop⟩
  · unfold readBondingStats readBondingStatsLog readFile
    rw [hm]
    simp only [hml]
  · unfold readBondingStatsReads readBondingStatsLog readFile
    rw [hm]
    simp only [hml]

/-- The state of `eth1` under `lower_` is denied: the read fails with that
error after four reads, and the readable `slave_eth1/operstate` is not read. -/
theorem readBondingStats_no_fallback_example :
    readBondingStats deniedFS sysfsNet =
        (none, some (IOError.other "/sys/class/net/bond0/lower_eth1/operstate".toList 13)) ∧
      readBondingStatsReads deniedFS sysfsNet =
        mastersPath sysfsNet :: ([] ++ slavesPath sysfsNet "bond0".toList ::
          ([lowerPath sysfsNet "bond0".toList "eth0".toList] ++
            [lowerPath sysfsNet "bond0".toList "eth1".toList])) ∧
      readOperstate deniedFS sysfsNet "bond0".toList "eth1".toList =
        (([], some (IOError.other "/sys/class/net/bond0/lower_eth1/operstate".toList 13)),
          [lowerPath sysfsNet "bond0".toList "eth1".toList]) :=
  readBondingStats_no_fallback deniedFS sysfsNet "bond0\n".toList "bond0".toList
    "eth0 eth1\n".toList "eth1".toList [] [] ["eth0".toList] [] [] (1, 1) []
    [lowerPath sysfsNet "bond0".toList "eth0".toList]
    (IOError.other "/sys/class/net/bond0/lower_eth1/operstate".toList 13)
    (by decide) (by decide) (by decide) (by decide) (by decide) (by decide) (by decide)
    (by decide)

/-- C8: in a successful read the entry of a listed master counts every name
of its slaves file as configured, and as active exactly those whose state
content trims to `up`; a content trims to `up` exactly when it is `up` between
white space, so `up`, `up\n` and `  up  ` are active while `down`, `unknown`,
`UP`, `u p` and the empty content are not. -/
theorem readBondingStats_active_iff (fs : FS) (root masters m slaves : Str) (R : StatusMap)
    (hR : readBondingStats fs root = (some R, none))
    (hm : fs (mastersPath root) = .ok masters) (hmem : m ∈ fields masters)
    (hs : fs (slavesPath root m) = .ok slaves) :
    (∃ state : Str → Str,
      (∀ s ∈ fields slaves, OperstateIs fs root m s (state s)) ∧
      R.get? m = some (((fields slaves).length : Int),
        (((fields slaves).countP fun s =>
          decide (trimSpace (state s) = "up".toList) : Nat) : Int))) ∧
    (∀ c : Str, trimSpace c = "up".toList ↔
      ∃ pre post : Str, (∀ x ∈ pre, isSpace x = true) ∧ (∀ x ∈ post, isSpace x = true) ∧
        c = pre ++ "up".toList ++ post) ∧
    trimSpace "up".toList = "up".toList ∧
    trimSpace "up\n".toList = "up".toList ∧
    trimSpace "  up  ".toList = "up".toList ∧
    trimSpace "down".toList ≠ "up".toList ∧
    trimSpace "unknown".toList ≠ "up".toList ∧
    trimSpace "UP".toList ≠ "up".toList ∧
    trimSpace "u p".toList ≠ "up".toList ∧
    trimSpace [] ≠ "up".toList := by
  refine ⟨?_, trimSpace_eq_up_iff, by decide, by decide, by decide, by decide, by decide,
    by decide, by decide, by decide⟩
  obtain ⟨cm, hcm, hw⟩ := readBondingStats_ok_inv fs root R (by rw [hR])
  rw [hm] at hcm
  simp only [Except.ok.injEq] at hcm
  subst hcm
  obtain ⟨v, hv, hget⟩ := (walk_get? fs root (fields masters) [] R hw).1 m hmem
  unfold masterCounts at hv
  rw [hs] at hv
  simp only at hv
  have hall := countSlaves_ok_inv fs root m (fields slaves) (0, 0) v hv
  refine ⟨fun s => match operstate fs root m s with | .ok c => c | .error _ => [], ?_, ?_⟩
  · intro s hsm
    obtain ⟨c, hc⟩ := hall s hsm
    have hc1 : OperstateIs fs root m s c := (operstate_ok_iff fs root m s c).mp hc
    simp only [hc]
    exact hc1
  · have hst : ∀ s ∈ fields slaves, operstate fs root m s =
        .ok (match operstate fs root m s with | .ok c => c | .error _ => []) := by
      intro s hsm
      obtain ⟨c, hc⟩ := hall s hsm
      rw [hc]
    rw [countSlaves_ok fs root m _ (fields slaves) (0, 0) hst] at hv
    simp only [zero_add, Except.ok.injEq] at hv
    rw [hget, ← hv]

/-- In the example scenario `bond0` has two configured slaves, one of them
active. -/
theorem readBondingStats_active_iff_example :
    ∃ state : Str → Str,
      (∀ s ∈ fields "eth0 eth1".toList,
        OperstateIs exampleFS sysfsNet "bond0".toList s (state s)) ∧
      StatusMap.get? [("bond0".toList, (2, 1)), ("bond1".toList, (0, 0))] "bond0".toList =
        some (((fields "eth0 eth1".toList).length : Int),
          (((fields "eth0 eth1".toList).countP fun s =>
            decide (trimSpace (state s) = "up".toList) : Nat) : Int)) :=
  (readBondingStats_active_iff exampleFS sysfsNet "bond0 bond1".toList "bond0".toList
    "eth0 eth1".toList [("bond0".toList, (2, 1)), ("bond1".toList, (0, 0))]
    (by decide) (by decide) (by decide) (by decide)).1

/-- C9: every entry of the map of a successful read has
`0 ≤ activeSlaves ≤ configuredSlaves`. -/
theorem readBondingStats_active_le_configured (fs : FS) (root : Str) (R : StatusMap)
    (hR : (readBondingStats fs root).1 = some R) :
    ∀ x ∈ R, 0 ≤ x.2.2 ∧ x.2.2 ≤ x.2.1 := by
  obtain ⟨cm, _, hw⟩ := readBondingStats_ok_inv fs root R hR
  intro x hx
  rcases walk_entries fs root (fields cm) [] R hw x hx with h | ⟨m, _, hv, _⟩
  · cases h
  · exact masterCounts_bounds fs root m x.2 hv

/-- In the example scenario the entry `(2, 1)` of `bond0` satisfies the bound. -/
theorem readBondingStats_active_le_configured_example :
    (0 : Int) ≤ (("bond0".toList, ((2 : Int), (1 : Int))) : Str × (Int × Int)).2.2 ∧
      (("bond0".toList, ((2 : Int), (1 : Int))) : Str × (Int × Int)).2.2 ≤
        (("bond0".toList, ((2 : Int), (1 : Int))) : Str × (Int × Int)).2.1 :=
  readBondingStats_active_le_configured exampleFS sysfsNet
    [("bond0".toList, (2, 1)), ("bond1".toList, (0, 0))] (by decide)
    ("bond0".toList, (2, 1)) (by decide)

/-- C10: in a successful read, a listed master whose slaves file is readable
and holds only white space (or nothing) has an entry, and the entry is
`(0, 0)`. -/
theorem readBondingStats_no_slaves (fs : FS) (root masters m slaves : Str) (R : StatusMap)
    (hR : readBondingStats fs root = (some R, none))
    (hm : fs (mastersPath root) = .ok masters) (hmem : m ∈ fields masters)
    (hs : fs (slavesPath root m) = .ok slaves)
    (hws : ∀ c ∈ slaves, isSpace c = true) :
    R.get? m = some (0, 0) ∧ (m, (0, 0)) ∈ R := by
  obtain ⟨cm, hcm, hw⟩ := readBondingStats_ok_inv fs root R (by rw [hR])
  rw [hm] at hcm
  simp only [Except.ok.injEq] at hcm
  subst hcm
  obtain ⟨v, hv, hget⟩ := (walk_get? fs root (fields masters) [] R hw).1 m hmem
  unfold masterCounts at hv
  rw [hs] at hv
  simp only at hv
  rw [fields_spaces slaves hws] at hv
  simp only [countSlaves, Except.ok.injEq] at hv
  rw [← hv] at hget
  exact ⟨hget, StatusMap.mem_of_get? R m (0, 0) hget⟩

/-- A master whose slaves file holds a single newline gets the entry `(0, 0)`. -/
theorem readBondingStats_no_slaves_example :
    StatusMap.get? [("bond0".toList, (0, 0))] "bond0".toList = some (0, 0) ∧
      ("bond0".toList, (0, 0)) ∈ ([("bond0".toList, (0, 0))] : StatusMap) :=
  readBondingStats_no_slaves idleFS sysfsNet "bond0\n".toList "bond0".toList "\n".toList
    [("bond0".toList, (0, 0))] (by decide) (by decide) (by decide) (by decide) (by decide)

/-! ## Keys of the status map -/

theorem StatusMap.mem_keys_set (m : StatusMap) (k k1 : Str) (v : Int × Int) :
    k1 ∈ (m.set k v).map Prod.fst ↔ k1 ∈ m.map Prod.fst ∨ k1 = k := by
  induction m with
  | nil => simp [StatusMap.set]
  | cons a rest ih =>
    obtain ⟨k2, v2⟩ := a
    by_cases h : k2 = k
    · subst h
      simp only [StatusMap.set, if_true, List.map_cons, List.mem_cons]
      tauto
    · simp only [StatusMap.set, h, if_false, List.map_cons, List.mem_cons, ih]
      tauto

theorem StatusMap.nodup_keys_set (m : StatusMap) (k : Str) (v : Int × Int)
    (h : (m.map Prod.fst).Nodup) : ((m.set k v).map Prod.fst).Nodup := by
  induction m with
  | nil => simp [StatusMap.set]
  | cons a rest ih =>
    obtain ⟨k2, v2⟩ := a
    simp only [List.map_cons, List.nodup_cons] at h
    by_cases hk : k2 = k
    · simp only [StatusMap.set, hk, if_true, List.map_cons, List.nodup_cons]
      rw [← hk]
      exact h
    · simp only [StatusMap.set, hk, if_false, List.map_cons, List.nodup_cons]
      refine ⟨?_, ih h.2⟩
      rw [StatusMap.mem_keys_set]
      rintro (h1 | h1)
      · exact h.1 h1
      · exact hk h1

theorem StatusMap.get?_isSome_iff (m : StatusMap) (k : Str) :
    (m.get? k).isSome = true ↔ k ∈ m.map Prod.fst := by
  induction m with
  | nil => simp [StatusMap.get?]
  | cons a rest ih =>
    obtain ⟨k2, v2⟩ := a
    by_cases hk : k2 = k
    · simp [StatusMap.get?, hk]
    · have hk1 : ¬ k = k2 := fun e => hk e.symm
      simp [StatusMap.get?, hk, hk1, ih]

theorem walk_keys (fs : FS) (root : Str) (masters : List Str) :
    ∀ status R : StatusMap, walk fs root masters status = .ok R →
      (∀ k, k ∈ R.map Prod.fst ↔ k ∈ status.map Prod.fst ∨ k ∈ masters) ∧
      ((status.map Prod.fst).Nodup → (R.map Prod.fst).Nodup) := by
  induction masters with
  | nil =>
    intro status R h
    simp only [walk, Except.ok.injEq] at h
    subst h
    simp
  | cons a rest ih =>
    intro status R h
    unfold walk at h
    cases ha : masterCounts fs root a with
    | error e1 => rw [ha] at h; cases h
    | ok v =>
      rw [ha] at h
      simp only at h
      obtain ⟨ih1, ih2⟩ := ih _ _ h
      refine ⟨?_, ?_⟩
      · intro k
        rw [ih1 k, StatusMap.mem_keys_set, List.mem_cons]
        tauto
      · intro hnd
        exact ih2 (StatusMap.nodup_keys_set _ _ _ hnd)

/-- The keys of a returned map are pairwise distinct, as in a Go map. -/
theorem readBondingStats_keys (fs : FS) (root masters : Str) (R : StatusMap)
    (hR : readBondingStats fs root = (some R, none))
    (hm : fs (mastersPath root) = .ok masters) :
    (∀ k, k ∈ R.map Prod.fst ↔ k ∈ fields masters) ∧ (R.map Prod.fst).Nodup := by
  obtain ⟨cm, hcm, hw⟩ := readBondingStats_ok_inv fs root R (by rw [hR])
  rw [hm] at hcm
  simp only [Except.ok.injEq] at hcm
  subst hcm
  obtain ⟨h1, h2⟩ := walk_keys fs root (fields masters) [] R hw
  refine ⟨fun k => ?_, h2 (by simp)⟩
  rw [h1 k]
  simp

theorem readBondingStats_keys_nodup (fs : FS) (root : Str) (R : StatusMap)
    (hR : readBondingStats fs root = (some R, none)) : (R.map Prod.fst).Nodup := by
  obtain ⟨cm, hcm, _⟩ := readBondingStats_ok_inv fs root R (by rw [hR])
  exact (readBondingStats_keys fs root cm R hR hcm).2

/-- The entry of a listed master in a returned map: the number of names of its
slaves file and the number of those whose state trims to `up`. -/
theorem listed_master_entry (fs : FS) (root masters m slaves : Str) (R : StatusMap)
    (hR : readBondingStats fs root = (some R, none))
    (hm : fs (mastersPath root) = .ok masters) (hmem : m ∈ fields masters)
    (hs : fs (slavesPath root m) = .ok slaves) :
    ∃ state : Str → Str,
      (∀ s ∈ fields slaves, OperstateIs fs root m s (state s)) ∧
      R.get? m = some (((fields slaves).length : Int),
        (((fields slaves).countP fun s =>
          decide (trimSpace (state s) = "up".toList) : Nat) : Int)) := by
  obtain ⟨cm, hcm, hw⟩ := readBondingStats_ok_inv fs root R (by rw [hR])
  rw [hm] at hcm
  simp only [Except.ok.injEq] at hcm
  subst hcm
  obtain ⟨v, hv, hget⟩ := (walk_get? fs root (fields masters) [] R hw).1 m hmem
  unfold masterCounts at hv
  rw [hs] at hv
  simp only at hv
  have hall := countSlaves_ok_inv fs root m (fields slaves) (0, 0) v hv
  refine ⟨fun s => match operstate fs root m s with | .ok c => c | .error _ => [], ?_, ?_⟩
  · intro s hsm
    obtain ⟨c, hc⟩ := hall s hsm
    have hc1 : OperstateIs fs root m s c := (operstate_ok_iff fs root m s c).mp hc
    simp only [hc]
    exact hc1
  · have hst : ∀ s ∈ fields slaves, operstate fs root m s =
        .ok (match operstate fs root m s with | .ok c => c | .error _ => []) := by
      intro s hsm
      obtain ⟨c, hc⟩ := hall s hsm
      rw [hc]
    rw [countSlaves_ok fs root m _ (fields slaves) (0, 0) hst] at hv
    simp only [zero_add, Except.ok.injEq] at hv
    rw [hget, ← hv]

/-- A listed master of a successful read has a readable slaves file. -/
theorem listed_master_slaves (fs : FS) (root masters m : Str) (R : StatusMap)
    (hR : readBondingStats fs root = (some R, none))
    (hm : fs (mastersPath root) = .ok masters) (hmem : m ∈ fields masters) :
    ∃ slaves, fs (slavesPath root m) = .ok slaves := by
  obtain ⟨cm, hcm, hw⟩ := readBondingStats_ok_inv fs root R (by rw [hR])
  rw [hm] at hcm
  simp only [Except.ok.injEq] at hcm
  subst hcm
  obtain ⟨v, hv⟩ := walk_ok_inv fs root (fields masters) [] R hw m hmem
  unfold masterCounts at hv
  cases hs : fs (slavesPath root m) with
  | ok cs => exact ⟨cs, rfl⟩
  | error e => rw [hs] at hv; cases hv

/-! ## The gauge vectors -/

theorem GaugeVec.get?_withLabelValuesSet_self {F : Type} (vec : GaugeVec F) (l : Str) (x : F) :
    (vec.withLabelValuesSet l x).get? l = some x := by
  induction vec with
  | nil => simp [GaugeVec.withLabelValuesSet, GaugeVec.get?]
  | cons a rest ih =>
    obtain ⟨l1, y⟩ := a
    by_cases h : l1 = l
    · simp [GaugeVec.withLabelValuesSet, GaugeVec.get?, h]
    · simp [GaugeVec.withLabelValuesSet, GaugeVec.get?, h, ih]

theorem GaugeVec.get?_withLabelValuesSet_ne {F : Type} (vec : GaugeVec F) (l l1 : Str) (x : F) (h : l ≠ l1) :
    (vec.withLabelValuesSet l x).get? l1 = vec.get? l1 := by
  induction vec with
  | nil => simp [GaugeVec.withLabelValuesSet, GaugeVec.get?, h]
  | cons a rest ih =>
    obtain ⟨l2, y⟩ := a
    by_cases h2 : l2 = l
    · subst h2
      simp [GaugeVec.withLabelValuesSet, GaugeVec.get?, h]
    · simp [GaugeVec.withLabelValuesSet, GaugeVec.get?, h2, ih]

theorem GaugeVec.mem_withLabelValuesSet_ne {F : Type} (vec : GaugeVec F) (l l1 : Str) (x y : F) (h : l ≠ l1) :
    (l1, y) ∈ vec.withLabelValuesSet l x ↔ (l1, y) ∈ vec := by
  induction vec with
  | nil =>
    simp only [GaugeVec.withLabelValuesSet, List.mem_singleton, Prod.mk.injEq, List.not_mem_nil,
      iff_false, not_and]
    intro e
    exact absurd e.symm h
  | cons a rest ih =>
    obtain ⟨l2, z⟩ := a
    by_cases h2 : l2 = l
    · subst h2
      have h3 : ¬ l1 = l2 := fun e => h e.symm
      simp [GaugeVec.withLabelValuesSet, h3]
    · simp [GaugeVec.withLabelValuesSet, h2, ih]

theorem GaugeVec.mem_collect {F : Type} (name : Str) (vec : GaugeVec F) (x : Metric F) :
    x ∈ vec.collect name ↔ x.name = name ∧ (x.master, x.value) ∈ vec := by
  unfold GaugeVec.collect
  simp only [List.mem_map, Prod.exists]
  constructor
  · rintro ⟨l, v, hmem, rfl⟩
    exact ⟨rfl, hmem⟩
  · rintro ⟨h1, h2⟩
    refine ⟨x.master, x.value, h2, ?_⟩
    cases x
    simp only at h1
    rw [h1]

theorem setGauges_frame {F : Type} (float64 : Int → F) (R : StatusMap) :
    ∀ (g : Gauges F) (l : Str), l ∉ R.map Prod.fst →
      (setGauges float64 R g).bondingSlaves.get? l = g.bondingSlaves.get? l ∧
      (setGauges float64 R g).bondingSlavesActive.get? l = g.bondingSlavesActive.get? l ∧
      (∀ y, (l, y) ∈ (setGauges float64 R g).bondingSlaves ↔ (l, y) ∈ g.bondingSlaves) ∧
      (∀ y, (l, y) ∈ (setGauges float64 R g).bondingSlavesActive ↔
        (l, y) ∈ g.bondingSlavesActive) := by
  induction R with
  | nil => intro g l _; simp [setGauges]
  | cons a rest ih =>
    intro g l hl
    obtain ⟨k, v⟩ := a
    simp only [List.map_cons, List.mem_cons, not_or] at hl
    have hne : k ≠ l := fun e => hl.1 e.symm
    obtain ⟨h1, h2, h3, h4⟩ := ih
      { bondingSlaves := g.bondingSlaves.withLabelValuesSet k (float64 v.1)
        bondingSlavesActive := g.bondingSlavesActive.withLabelValuesSet k (float64 v.2) }
      l hl.2
    simp only [setGauges]
    refine ⟨?_, ?_, ?_, ?_⟩
    · rw [h1, GaugeVec.get?_withLabelValuesSet_ne _ _ _ _ hne]
    · rw [h2, GaugeVec.get?_withLabelValuesSet_ne _ _ _ _ hne]
    · intro y
      rw [h3 y, GaugeVec.mem_withLabelValuesSet_ne _ _ _ _ _ hne]
    · intro y
      rw [h4 y, GaugeVec.mem_withLabelValuesSet_ne _ _ _ _ _ hne]

theorem setGauges_written {F : Type} (float64 : Int → F) (R : StatusMap) :
    ∀ (g : Gauges F), (R.map Prod.fst).Nodup → ∀ x ∈ R,
      (setGauges float64 R g).bondingSlaves.get? x.1 = some (float64 x.2.1) ∧
      (setGauges float64 R g).bondingSlavesActive.get? x.1 = some (float64 x.2.2) := by
  induction R with
  | nil => intro _ _ x hx; cases hx
  | cons a rest ih =>
    intro g hnd x hx
    obtain ⟨k, v⟩ := a
    simp only [List.map_cons, List.nodup_cons] at hnd
    simp only [setGauges]
    rcases List.mem_cons.mp hx with h | h
    · subst h
      obtain ⟨h1, h2, _, _⟩ := setGauges_frame float64 rest
        { bondingSlaves := g.bondingSlaves.withLabelValuesSet k (float64 v.1)
          bondingSlavesActive := g.bondingSlavesActive.withLabelValuesSet k (float64 v.2) }
        k hnd.1
      simp only
      rw [h1, h2, GaugeVec.get?_withLabelValuesSet_self, GaugeVec.get?_withLabelValuesSet_self]
      exact ⟨rfl, rfl⟩
    · exact ih _ hnd.2 x h

theorem Update_of_error {F : Type} (float64 : Int → F) (fs : FS) (g : Gauges F) (e : IOError)
    (h : (readBondingStats fs sysfsNet).2 = some e) :
    Update float64 fs g = (some e, g, []) := by
  unfold Update
  rcases hr : readBondingStats fs sysfsNet with ⟨st, err⟩
  rw [hr] at h
  simp only at h
  subst h
  rfl

theorem Update_of_ok {F : Type} (float64 : Int → F) (fs : FS) (g : Gauges F) (R : StatusMap)
    (h : readBondingStats fs sysfsNet = (some R, none)) :
    Update float64 fs g =
      (none, setGauges float64 R g,
        (setGauges float64 R g).bondingSlaves.collect "net_bonding_slaves".toList ++
          (setGauges float64 R g).bondingSlavesActive.collect
            "net_bonding_slaves_active".toList) := by
  unfold Update
  rw [h]
  rfl

/-! ## Repeated names -/

theorem occurrences_eq_count (d : Str) (l : List Str) :
    occurrences d l = @List.count Str instBEqOfDecidableEq d l := by
  unfold occurrences List.count
  congr 1

theorem sum_occurrences_dedup (l : List Str) :
    (l.dedup.map fun d => occurrences d l).sum = l.length := by
  simp only [occurrences_eq_count]
  exact List.sum_map_count_dedup_eq_length l

theorem sum_occurrences_dedup_filter (q : Str → Bool) (l : List Str) :
    ((l.dedup.filter q).map fun d => occurrences d l).sum = l.countP q := by
  simp only [occurrences_eq_count]
  exact List.sum_map_count_dedup_filter_eq_countP q l

theorem occurrences_pos_iff (d : Str) (l : List Str) : 0 < occurrences d l ↔ d ∈ l := by
  unfold occurrences
  rw [List.countP_pos_iff]
  simp

theorem occurrences_eq_one (d : Str) (l : List Str) (hnd : l.Nodup) (h : d ∈ l) :
    occurrences d l = 1 := by
  rw [occurrences_eq_count]
  exact List.count_eq_one_of_mem hnd h

/-- C11: names repeated in a slaves file are counted at every occurrence: in a
successful read the entry of a listed master has, as configured slaves, the
sum over the distinct names of the number of their occurrences in its slaves
file, and as active slaves the same sum over the distinct names whose state
trims to `up`. -/
theorem readBondingStats_repeated_slave (fs : FS) (root masters m slaves : Str)
    (R : StatusMap)
    (hR : readBondingStats fs root = (some R, none))
    (hm : fs (mastersPath root) = .ok masters) (hmem : m ∈ fields masters)
    (hs : fs (slavesPath root m) = .ok slaves) :
    ∃ state : Str → Str,
      (∀ s ∈ fields slaves, OperstateIs fs root m s (state s)) ∧
      R.get? m = some
        (((((fields slaves).dedup.map fun d => occurrences d (fields slaves)).sum : Nat) : Int),
          (((((fields slaves).dedup.filter fun d =>
            decide (trimSpace (state d) = "up".toList)).map
              fun d => occurrences d (fields slaves)).sum : Nat) : Int)) := by
  obtain ⟨state, h1, h2⟩ := listed_master_entry fs root masters m slaves R hR hm hmem hs
  refine ⟨state, h1, ?_⟩
  rw [sum_occurrences_dedup, sum_occurrences_dedup_filter]
  exact h2

/-- The slaves file `eth0 eth1 eth0` with `eth0` up gives three configured and
two active slaves. -/
theorem readBondingStats_repeated_slave_example :
    ∃ state : Str → Str,
      (∀ s ∈ fields "eth0 eth1 eth0\n".toList,
        OperstateIs twiceSlaveFS sysfsNet "bond0".toList s (state s)) ∧
      StatusMap.get? [("bond0".toList, (3, 2))] "bond0".toList = some
        (((((fields "eth0 eth1 eth0\n".toList).dedup.map fun d =>
          occurrences d (fields "eth0 eth1 eth0\n".toList)).sum : Nat) : Int),
          (((((fields "eth0 eth1 eth0\n".toList).dedup.filter fun d =>
            decide (trimSpace (state d) = "up".toList)).map
              fun d => occurrences d (fields "eth0 eth1 eth0\n".toList)).sum : Nat) : Int)) :=
  readBondingStats_repeated_slave twiceSlaveFS sysfsNet "bond0\n".toList "bond0".toList
    "eth0 eth1 eth0\n".toList [("bond0".toList, (3, 2))] (by decide) (by decide) (by decide)
    (by decide)

/-- C12, as stated, fails: `bond0` is listed twice and has one slave, which is
up, and its entry is `(1, 1)`, not `(2 * 1, 2 * 1)`. -/
theorem readBondingStats_repeated_master_not_added :
    occurrences "bond0".toList (fields "bond0 bond0\n".toList) = 2 ∧
      twiceMasterFS (mastersPath sysfsNet) = .ok "bond0 bond0\n".toList ∧
      twiceMasterFS (slavesPath sysfsNet "bond0".toList) = .ok "eth0\n".toList ∧
      (fields "eth0\n".toList).length = 1 ∧
      OperstateIs twiceMasterFS sysfsNet "bond0".toList "eth0".toList "up\n".toList ∧
      readBondingStats twiceMasterFS sysfsNet = (some [("bond0".toList, (1, 1))], none) ∧
      StatusMap.get? [("bond0".toList, (1, 1))] "bond0".toList ≠ some (2 * 1, 2 * 1) := by
  decide

/-- C12, amended: a master listed `k ≥ 1` times has one entry in the map of a
successful read, and the entry holds the counts of its slaves file once: the
number of its names and the number of those whose state trims to `up`. -/
theorem readBondingStats_repeated_master (fs : FS) (root masters m slaves : Str)
    (R : StatusMap) (k : Nat)
    (hR : readBondingStats fs root = (some R, none))
    (hm : fs (mastersPath root) = .ok masters)
    (hk : occurrences m (fields masters) = k) (hpos : 0 < k)
    (hs : fs (slavesPath root m) = .ok slaves) :
    occurrences m (R.map Prod.fst) = 1 ∧
    ∃ state : Str → Str,
      (∀ s ∈ fields slaves, OperstateIs fs root m s (state s)) ∧
      R.get? m = some (((fields slaves).length : Int),
        (((fields slaves).countP fun s =>
          decide (trimSpace (state s) = "up".toList) : Nat) : Int)) := by
  have hmem : m ∈ fields masters := by
    rw [← hk] at hpos
    exact (occurrences_pos_iff m _).mp hpos
  obtain ⟨hkeys, hnd⟩ := readBondingStats_keys fs root masters R hR hm
  exact ⟨occurrences_eq_one m _ hnd ((hkeys m).mpr hmem),
    listed_master_entry fs root masters m slaves R hR hm hmem hs⟩

/-- The master `bond0`, listed twice, has one entry. -/
theorem readBondingStats_repeated_master_example :
    occurrences "bond0".toList (List.map Prod.fst ([("bond0".toList, (1, 1))] : StatusMap)) = 1 ∧
    ∃ state : Str → Str,
      (∀ s ∈ fields "eth0\n".toList,
        OperstateIs twiceMasterFS sysfsNet "bond0".toList s (state s)) ∧
      StatusMap.get? [("bond0".toList, (1, 1))] "bond0".toList =
        some (((fields "eth0\n".toList).length : Int),
          (((fields "eth0\n".toList).countP fun s =>
            decide (trimSpace (state s) = "up".toList) : Nat) : Int)) :=
  readBondingStats_repeated_master twiceMasterFS sysfsNet "bond0 bond0\n".toList
    "bond0".toList "eth0\n".toList [("bond0".toList, (1, 1))] 2 (by decide) (by decide)
    (by decide) (by decide) (by decide)

/-- C19: the keys of the map of a successful read are the names listed in the
masters file, each once: the map has as many entries as there are distinct
names, and the entry of a name holds the counts of one pass over its slaves
file, however often the name is listed. -/
theorem readBondingStats_key_set (fs : FS) (root masters : Str) (R : StatusMap)
    (hR : readBondingStats fs root = (some R, none))
    (hm : fs (mastersPath root) = .ok masters) :
    (∀ k, k ∈ R.map Prod.fst ↔ k ∈ fields masters) ∧
    (R.map Prod.fst).Nodup ∧
    R.length = (fields masters).dedup.length ∧
    ∀ m ∈ fields masters, ∃ (slaves : Str) (state : Str → Str),
      fs (slavesPath root m) = .ok slaves ∧
      (∀ s ∈ fields slaves, OperstateIs fs root m s (state s)) ∧
      R.get? m = some (((fields slaves).length : Int),
        (((fields slaves).countP fun s =>
          decide (trimSpace (state s) = "up".toList) : Nat) : Int)) := by
  obtain ⟨hkeys, hnd⟩ := readBondingStats_keys fs root masters R hR hm
  refine ⟨hkeys, hnd, ?_, ?_⟩
  · have hperm : (R.map Prod.fst).Perm (fields masters).dedup := by
      rw [List.perm_ext_iff_of_nodup hnd (List.nodup_dedup _)]
      intro a
      rw [hkeys a, List.mem_dedup]
    rw [← hperm.length_eq, List.length_map]
  · intro m hmem
    obtain ⟨slaves, hs⟩ := listed_master_slaves fs root masters m R hR hm hmem
    obtain ⟨state, h1, h2⟩ := listed_master_entry fs root masters m slaves R hR hm hmem hs
    exact ⟨slaves, state, hs, h1, h2⟩

/-- The masters file `bond0 bond0` gives a map with the single key `bond0`. -/
theorem readBondingStats_key_set_example :
    (∀ k, k ∈ List.map Prod.fst ([("bond0".toList, (1, 1))] : StatusMap) ↔
      k ∈ fields "bond0 bond0\n".toList) ∧
    (List.map Prod.fst ([("bond0".toList, (1, 1))] : StatusMap)).Nodup ∧
    ([("bond0".toList, (1, 1))] : StatusMap).length =
      (fields "bond0 bond0\n".toList).dedup.length ∧
    ∀ m ∈ fields "bond0 bond0\n".toList, ∃ (slaves : Str) (state : Str → Str),
      twiceMasterFS (slavesPath sysfsNet m) = .ok slaves ∧
      (∀ s ∈ fields slaves, OperstateIs twiceMasterFS sysfsNet m s (state s)) ∧
      StatusMap.get? [("bond0".toList, (1, 1))] m = some (((fields slaves).length : Int),
        (((fields slaves).countP fun s =>
          decide (trimSpace (state s) = "up".toList) : Nat) : Int)) :=
  readBondingStats_key_set twiceMasterFS sysfsNet "bond0 bond0\n".toList
    [("bond0".toList, (1, 1))] (by decide) (by decide)

/-! ## Properties of `Update` -/

/-- C13: when the read of `/sys/class/net` fails with the error `e`, `Update`
returns `e` itself, leaves both gauge vectors as they were and sends nothing
on the channel. -/
theorem Update_error {F : Type} (float64 : Int → F) (fs : FS) (g : Gauges F) (e : IOError)
    (h : (readBondingStats fs sysfsNet).2 = some e) :
    (Update float64 fs g).1 = some e ∧ (Update float64 fs g).2.1 = g ∧
      (Update float64 fs g).2.2 = [] := by
  rw [Update_of_error float64 fs g e h]
  exact ⟨rfl, rfl, rfl⟩

/-- On the tree whose slave `eth3` has no state file, `Update` returns the
error of the read under `slave_eth3` and keeps the stored gauges. -/
theorem Update_error_example :
    (Update (fun n => n) orphanFS
        { bondingSlaves := [("bond0".toList, 2)], bondingSlavesActive := [("bond0".toList, 1)] }).1 =
        some (IOError.notExist "/sys/class/net/bond1/slave_eth3/operstate".toList) ∧
      (Update (fun n => n) orphanFS
        { bondingSlaves := [("bond0".toList, 2)],
          bondingSlavesActive := [("bond0".toList, 1)] }).2.1 =
        { bondingSlaves := [("bond0".toList, 2)], bondingSlavesActive := [("bond0".toList, 1)] } ∧
      (Update (fun n => n) orphanFS
        { bondingSlaves := [("bond0".toList, 2)],
          bondingSlavesActive := [("bond0".toList, 1)] }).2.2 = [] :=
  Update_error (fun n => n) orphanFS
    { bondingSlaves := [("bond0".toList, 2)], bondingSlavesActive := [("bond0".toList, 1)] }
    (IOError.notExist "/sys/class/net/bond1/slave_eth3/operstate".toList) (by decide)

/-- C14: when the read succeeds with the map `R`, `Update` returns no error
and afterwards, for every entry of `R`, the gauge of `net_bonding_slaves` with
the master as label holds the configured count and the gauge of
`net_bonding_slaves_active` holds the active count, whatever was stored for
that label before. -/
theorem Update_records {F : Type} (float64 : Int → F) (fs : FS) (g : Gauges F)
    (R : StatusMap) (hR : readBondingStats fs sysfsNet = (some R, none)) :
    (Update float64 fs g).1 = none ∧
      ∀ x ∈ R,
        (Update float64 fs g).2.1.bondingSlaves.get? x.1 = some (float64 x.2.1) ∧
        (Update float64 fs g).2.1.bondingSlavesActive.get? x.1 = some (float64 x.2.2) := by
  rw [Update_of_ok float64 fs g R hR]
  refine ⟨rfl, ?_⟩
  intro x hx
  exact setGauges_written float64 R g (readBondingStats_keys_nodup fs sysfsNet R hR) x hx

/-- In the example scenario the stored values `7` of `bond0` are replaced by
`2` and `1`. -/
theorem Update_records_example :
    (Update (fun n => n) exampleFS
        { bondingSlaves := [("bond0".toList, 7)], bondingSlavesActive := [("bond0".toList, 7)] }).1 =
        none ∧
      (Update (fun n => n) exampleFS
        { bondingSlaves := [("bond0".toList, 7)],
          bondingSlavesActive := [("bond0".toList, 7)] }).2.1.bondingSlaves.get?
            "bond0".toList = some 2 ∧
      (Update (fun n => n) exampleFS
        { bondingSlaves := [("bond0".toList, 7)],
          bondingSlavesActive := [("bond0".toList, 7)] }).2.1.bondingSlavesActive.get?
            "bond0".toList = some 1 :=
  ⟨(Update_records (fun n => n) exampleFS
      { bondingSlaves := [("bond0".toList, 7)], bondingSlavesActive := [("bond0".toList, 7)] }
      [("bond0".toList, (2, 1)), ("bond1".toList, (0, 0))] (by decide)).1,
    (Update_records (fun n => n) exampleFS
      { bondingSlaves := [("bond0".toList, 7)], bondingSlavesActive := [("bond0".toList, 7)] }
      [("bond0".toList, (2, 1)), ("bond1".toList, (0, 0))] (by decide)).2
      ("bond0".toList, (2, 1)) (by decide)⟩

/-- C15, as stated, fails: after a cycle on the example scenario, a cycle on
the tree without `bond0` reads a map without `bond0` and still sends the
metric of `bond0`, with the value of the earlier cycle. -/
theorem Update_sends_removed_master :
    readBondingStats removedFS sysfsNet = (some [("bond1".toList, (0, 0))], none) ∧
      "bond0".toList ∉ List.map Prod.fst ([("bond1".toList, (0, 0))] : StatusMap) ∧
      ({ name := "net_bonding_slaves".toList, master := "bond0".toList, value := 2 } :
          Metric Int) ∈
        (Update (fun n => n) removedFS
          (Update (fun n => n) exampleFS
            { bondingSlaves := [], bondingSlavesActive := [] }).2.1).2.2 := by
  decide

/-- C15, amended: the metrics a successful `Update` sends for a master that is
absent from the current read are the gauges stored for that master before the
call, in either vector, with their stored values; such a master is absent
from what is sent exactly when nothing was stored for it. -/
theorem Update_sends_stored {F : Type} (float64 : Int → F) (fs : FS) (g : Gauges F)
    (R : StatusMap) (master : Str)
    (hR : readBondingStats fs sysfsNet = (some R, none))
    (habs : master ∉ R.map Prod.fst) :
    ∀ (name : Str) (v : F),
      ({ name := name, master := master, value := v } : Metric F) ∈
          (Update float64 fs g).2.2 ↔
        (name = "net_bonding_slaves".toList ∧ (master, v) ∈ g.bondingSlaves) ∨
          (name = "net_bonding_slaves_active".toList ∧ (master, v) ∈ g.bondingSlavesActive) := by
  intro name v
  rw [Update_of_ok float64 fs g R hR]
  obtain ⟨_, _, h3, h4⟩ := setGauges_frame float64 R g master habs
  simp only [List.mem_append, GaugeVec.mem_collect, h3, h4]

/-- The cycle on the tree without `bond0` sends the metric of `bond0` because
the earlier cycle stored it. -/
theorem Update_sends_stored_example :
    ({ name := "net_bonding_slaves".toList, master := "bond0".toList, value := 2 } :
          Metric Int) ∈
        (Update (fun n => n) removedFS
          { bondingSlaves := [("bond0".toList, 2)],
            bondingSlavesActive := [("bond0".toList, 1)] }).2.2 ↔
      ("net_bonding_slaves".toList = "net_bonding_slaves".toList ∧
          ("bond0".toList, (2 : Int)) ∈ [("bond0".toList, (2 : Int))]) ∨
        ("net_bonding_slaves".toList = "net_bonding_slaves_active".toList ∧
          ("bond0".toList, (2 : Int)) ∈ [("bond0".toList, (1 : Int))]) :=
  Update_sends_stored (fun n => n) removedFS
    { bondingSlaves := [("bond0".toList, 2)], bondingSlavesActive := [("bond0".toList, 1)] }
    [("bond1".toList, (0, 0))] "bond0".toList (by decide) (by decide)
    "net_bonding_slaves".toList 2

/-- C16: a successful `Update` leaves the gauges of every label that is not a
key of the current read as they were, in both vectors: neither changed nor
cleared. -/
theorem Update_frame {F : Type} (float64 : Int → F) (fs : FS) (g : Gauges F)
    (R : StatusMap) (l : Str)
    (hR : readBondingStats fs sysfsNet = (some R, none))
    (hl : l ∉ R.map Prod.fst) :
    (Update float64 fs g).2.1.bondingSlaves.get? l = g.bondingSlaves.get? l ∧
      (Update float64 fs g).2.1.bondingSlavesActive.get? l = g.bondingSlavesActive.get? l := by
  rw [Update_of_ok float64 fs g R hR]
  obtain ⟨h1, h2, _, _⟩ := setGauges_frame float64 R g l hl
  exact ⟨h1, h2⟩

/-- The values stored for `bond0` survive a cycle on the tree without `bond0`. -/
theorem Update_frame_example :
    (Update (fun n => n) removedFS
        { bondingSlaves := [("bond0".toList, 2)],
          bondingSlavesActive := [("bond0".toList, 1)] }).2.1.bondingSlaves.get?
            "bond0".toList =
        GaugeVec.get? [("bond0".toList, (2 : Int))] "bond0".toList ∧
      (Update (fun n => n) removedFS
        { bondingSlaves := [("bond0".toList, 2)],
          bondingSlavesActive := [("bond0".toList, 1)] }).2.1.bondingSlavesActive.get?
            "bond0".toList =
        GaugeVec.get? [("bond0".toList, (1 : Int))] "bond0".toList :=
  Update_frame (fun n => n) removedFS
    { bondingSlaves := [("bond0".toList, 2)], bondingSlavesActive := [("bond0".toList, 1)] }
    [("bond1".toList, (0, 0))] "bond0".toList (by decide) (by decide)

/-- C20: when the masters file is readable and holds only white space (or
nothing), the read returns the empty map and no error and reads no other file;
`Update`, which reads `/sys/class/net`, then returns no error and leaves both
gauge vectors as they were. -/
theorem readBondingStats_no_masters {F : Type} (float64 : Int → F) (fs : FS)
    (root masters : Str) (g : Gauges F)
    (hm : fs (mastersPath root) = .ok masters)
    (hws : ∀ c ∈ masters, isSpace c = true) :
    readBondingStats fs root = (some [], none) ∧
      readBondingStatsReads fs root = [mastersPath root] ∧
      (root = sysfsNet →
        (Update float64 fs g).1 = none ∧ (Update float64 fs g).2.1 = g) := by
  have hlog : readBondingStatsLog fs root = ((some [], none), [mastersPath root]) := by
    unfold readBondingStatsLog readFile
    rw [hm]
    simp only [fields_spaces masters hws, mastersLoop]
  have hr : readBondingStats fs root = (some [], none) := by
    unfold readBondingStats
    rw [hlog]
  refine ⟨hr, ?_, ?_⟩
  · unfold readBondingStatsReads
    rw [hlog]
  · intro hroot
    subst hroot
    rw [Update_of_ok float64 fs g [] hr]
    exact ⟨rfl, rfl⟩

/-- On a tree whose masters file holds a newline the read returns the empty
map after one read, and `Update` keeps the stored gauges. -/
theorem readBondingStats_no_masters_example :
    readBondingStats blankFS sysfsNet = (some [], none) ∧
      readBondingStatsReads blankFS sysfsNet = [mastersPath sysfsNet] ∧
      (sysfsNet = sysfsNet →
        (Update (fun n => n) blankFS
          { bondingSlaves := [("bond0".toList, 2)],
            bondingSlavesActive := [("bond0".toList, 1)] }).1 = none ∧
        (Update (fun n => n) blankFS
          { bondingSlaves := [("bond0".toList, 2)],
            bondingSlavesActive := [("bond0".toList, 1)] }).2.1 =
          { bondingSlaves := [("bond0".toList, 2)],
            bondingSlavesActive := [("bond0".toList, 1)] }) :=
  readBondingStats_no_masters (fun n => n) blankFS sysfsNet "\n".toList
    { bondingSlaves := [("bond0".toList, 2)], bondingSlavesActive := [("bond0".toList, 1)] }
    (by decide) (by decide)

/-! ## The order of the two state files -/

theorem operstate_slave_irrelevant (A B : FS) (root m0 s0 c : Str) (hs0 : '/' ∉ s0)
    (hA : A (lowerPath root m0 s0) = .ok c)
    (hsame : ∀ p, p ≠ slavePath root m0 s0 → B p = A p)
    (m s : Str) (hs : '/' ∉ s) :
    operstate B root m s = operstate A root m s := by
  have hL : B (lowerPath root m s) = A (lowerPath root m s) :=
    hsame _ (lowerPath_ne_slavePath root m m0 s s0 hs hs0)
  unfold operstate
  rw [hL]
  by_cases hsm : dirOf [root, m] = dirOf [root, m0] ∧ s = s0
  · rw [(lowerPath_eq_iff root m m0 s s0 hs hs0).mpr hsm, hA]
  · have hS : slavePath root m s ≠ slavePath root m0 s0 :=
      fun e => hsm ((slavePath_eq_iff root m m0 s s0 hs hs0).mp e)
    rw [hsame _ hS]

theorem readOperstate_lower (fs : FS) (root m s c : Str)
    (h : fs (lowerPath root m s) = .ok c) :
    readOperstate fs root m s = ((c, none), [lowerPath root m s]) := by
  unfold readOperstate readFile
  rw [h]
  simp [isNotExist]

/-- C17, as stated, fails: the slaves file of `crossedFS` lists a name with
path separators whose `lower_` path is `bond0/slave_eth0/operstate`.  The
state of `eth0` is readable under `lower_eth0`, the two trees differ only in
`bond0/slave_eth0/operstate`, and the read succeeds on one and fails on the
other. -/
theorem readBondingStats_slave_file_matters :
    crossedFS (lowerPath sysfsNet "bond0".toList "eth0".toList) = .ok "up\n".toList ∧
      (∀ p, p ≠ slavePath sysfsNet "bond0".toList "eth0".toList →
        crossedGoneFS p = crossedFS p) ∧
      readBondingStats crossedFS sysfsNet = (some [("bond0".toList, (2, 2))], none) ∧
      readBondingStats crossedGoneFS sysfsNet =
        (none, some (IOError.notExist "/sys/class/net/bond0/slave_eth0/operstate".toList)) :=
  ⟨by decide, fun p h => by simp only [crossedGoneFS, if_neg h], by decide, by decide⟩

/-- C17, amended: with slave names free of path separators, when the state of
the slave `s` of `m` is readable under `lower_`, the read of that state
returns this content after reading that file only, and two trees that differ
only in the file of `s` under `slave_` give the same outcome of the read. -/
theorem readBondingStats_lower_first (A B : FS) (root m s c : Str)
    (hs : '/' ∉ s) (hnames : slaveNamesPlain A root = true)
    (hA : A (lowerPath root m s) = .ok c)
    (hsame : ∀ p, p ≠ slavePath root m s → B p = A p) :
    readOperstate A root m s = ((c, none), [lowerPath root m s]) ∧
      readOperstate B root m s = ((c, none), [lowerPath root m s]) ∧
      readBondingStats B root = readBondingStats A root := by
  have hB : B (lowerPath root m s) = .ok c := by
    rw [hsame _ (lowerPath_ne_slavePath root m m s s hs hs), hA]
  refine ⟨readOperstate_lower A root m s c hA, readOperstate_lower B root m s c hB, ?_⟩
  have hmp : B (mastersPath root) = A (mastersPath root) :=
    hsame _ (mastersPath_ne_statePath root m _)
  have hsp : ∀ m1, B (slavesPath root m1) = A (slavesPath root m1) := fun m1 =>
    hsame _ (slavesPath_ne_statePath root m1 m _)
  rw [readBondingStats_eq, readBondingStats_eq, hmp]
  cases hm : A (mastersPath root) with
  | error e => rfl
  | ok masters =>
    simp only
    have hw : walk B root (fields masters) [] = walk A root (fields masters) [] := by
      apply walk_congr
      intro m1 hm1
      unfold masterCounts
      rw [hsp m1]
      cases hsl : A (slavesPath root m1) with
      | error e => rfl
      | ok slaves =>
        simp only
        apply countSlaves_congr
        intro s1 hs1
        exact operstate_slave_irrelevant A B root m s c hs hA hsame m1 s1
          (slaveNamesPlain_spec A root masters m1 slaves s1 hnames hm hm1 hsl hs1)
    rw [hw]

/-- The tree with a readable, different state of `eth1` under `slave_eth1`. -/
theorem readBondingStats_lower_first_example :
    readOperstate exampleFS sysfsNet "bond0".toList "eth1".toList =
        (("down".toList, none), [lowerPath sysfsNet "bond0".toList "eth1".toList]) ∧
      readOperstate
          (fun p => if p = slavePath sysfsNet "bond0".toList "eth1".toList then
            .ok "up".toList else exampleFS p)
          sysfsNet "bond0".toList "eth1".toList =
        (("down".toList, none), [lowerPath sysfsNet "bond0".toList "eth1".toList]) ∧
      readBondingStats
          (fun p => if p = slavePath sysfsNet "bond0".toList "eth1".toList then
            .ok "up".toList else exampleFS p) sysfsNet =
        readBondingStats exampleFS sysfsNet :=
  readBondingStats_lower_first exampleFS
    (fun p => if p = slavePath sysfsNet "bond0".toList "eth1".toList then
      .ok "up".toList else exampleFS p)
    sysfsNet "bond0".toList "eth1".toList "down".toList (by decide) (by decide) (by decide)
    (fun p h => by simp only [if_neg h])

/-! ## The first failing read -/

theorem operstate_error_eq (fs : FS) (root m s : Str) (e : IOError)
    (h : operstate fs root m s = .error e) :
    (fs (lowerPath root m s) = .error e ∧ isNotExist (some e) = false) ∨
      (missing fs (lowerPath root m s) = true ∧ fs (slavePath root m s) = .error e) := by
  unfold operstate at h
  unfold missing
  cases hl : fs (lowerPath root m s) with
  | ok d => rw [hl] at h; cases h
  | error e1 =>
    rw [hl] at h
    simp only at h
    by_cases hn : isNotExist (some e1) = true
    · simp only [hn, if_true] at h
      exact Or.inr ⟨hn, h⟩
    · simp only [hn, if_false, Except.error.injEq, Bool.false_eq_true] at h
      subst h
      exact Or.inl ⟨rfl, by simpa using hn⟩

theorem countSlaves_error_split (fs : FS) (root m : Str) (e : IOError) (slaves : List Str) :
    ∀ sstat : Int × Int, countSlaves fs root m slaves sstat = .error e →
      ∃ ss1 s ss2, slaves = ss1 ++ s :: ss2 ∧
        (∀ s1 ∈ ss1, ∃ c, OperstateIs fs root m s1 c) ∧
        operstate fs root m s = .error e := by
  induction slaves with
  | nil => intro sstat h; simp [countSlaves] at h
  | cons a rest ih =>
    intro sstat h
    unfold countSlaves at h
    cases ha : operstate fs root m a with
    | error e1 =>
      rw [ha] at h
      simp only [Except.error.injEq] at h
      subst h
      exact ⟨[], a, rest, rfl, fun s1 hs1 => (by cases hs1), ha⟩
    | ok d =>
      rw [ha] at h
      simp only at h
      obtain ⟨ss1, s, ss2, h1, h2, h3⟩ := ih _ h
      refine ⟨a :: ss1, s, ss2, by rw [h1]; rfl, ?_, h3⟩
      intro s1 hs1
      rcases List.mem_cons.mp hs1 with h4 | h4
      · exact ⟨d, by rw [h4]; exact (operstate_ok_iff fs root m a d).mp ha⟩
      · exact h2 s1 h4

theorem masterCounts_ok_raw (fs : FS) (root m : Str) (v : Int × Int)
    (h : masterCounts fs root m = .ok v) :
    ∃ slaves, fs (slavesPath root m) = .ok slaves ∧
      ∀ s ∈ fields slaves, ∃ c, OperstateIs fs root m s c := by
  unfold masterCounts at h
  cases hs : fs (slavesPath root m) with
  | error e => rw [hs] at h; cases h
  | ok cs =>
    rw [hs] at h
    simp only at h
    refine ⟨cs, rfl, ?_⟩
    intro s hsm
    obtain ⟨c, hc⟩ := countSlaves_ok_inv fs root m (fields cs) (0, 0) v h s hsm
    exact ⟨c, (operstate_ok_iff fs root m s c).mp hc⟩

theorem walk_error_split (fs : FS) (root : Str) (e : IOError) (masters : List Str) :
    ∀ status : StatusMap, walk fs root masters status = .error e →
      ∃ ms1 m ms2, masters = ms1 ++ m :: ms2 ∧
        (∀ m1 ∈ ms1, ∃ v, masterCounts fs root m1 = .ok v) ∧
        masterCounts fs root m = .error e := by
  induction masters with
  | nil => intro status h; simp [walk] at h
  | cons a rest ih =>
    intro status h
    unfold walk at h
    cases ha : masterCounts fs root a with
    | error e1 =>
      rw [ha] at h
      simp only [Except.error.injEq] at h
      subst h
      exact ⟨[], a, rest, rfl, fun m1 hm1 => (by cases hm1), ha⟩
    | ok v =>
      rw [ha] at h
      simp only at h
      obtain ⟨ms1, m, ms2, h1, h2, h3⟩ := ih _ h
      refine ⟨a :: ms1, m, ms2, by rw [h1]; rfl, ?_, h3⟩
      intro m1 hm1
      rcases List.mem_cons.mp hm1 with h4 | h4
      · exact ⟨v, by rw [h4]; exact ha⟩
      · exact h2 m1 h4

theorem readOperstate_log_error (fs : FS) (root m s st : Str) (e : IOError) (log : List Str)
    (h : readOperstate fs root m s = ((st, some e), log)) :
    ∃ p, log.getLast? = some p ∧ fs p = .error e := by
  unfold readOperstate readFile at h
  cases hl : fs (lowerPath root m s) with
  | ok d =>
    rw [hl] at h
    simp [isNotExist] at h
  | error e1 =>
    rw [hl] at h
    by_cases hn : isNotExist (some e1) = true
    · simp only [hn, if_true, Prod.mk.injEq] at h
      obtain ⟨h1, h2⟩ := h
      cases hsl : fs (slavePath root m s) with
      | ok d => rw [hsl] at h1; simp at h1
      | error e2 =>
        rw [hsl] at h1
        simp only [Prod.mk.injEq, Option.some.injEq] at h1
        refine ⟨slavePath root m s, ?_, ?_⟩
        · rw [← h2]; rfl
        · rw [hsl, h1.2]
    · simp only [hn, if_false, Prod.mk.injEq, Option.some.injEq, Bool.false_eq_true] at h
      obtain ⟨⟨_, h1⟩, h2⟩ := h
      refine ⟨lowerPath root m s, ?_, ?_⟩
      · rw [← h2]; rfl
      · rw [hl, h1]

theorem getLast?_append_some {α : Type} (l1 l2 : List α) (p : α)
    (h : l2.getLast? = some p) : (l1 ++ l2).getLast? = some p := by
  rw [List.getLast?_append, h]
  rfl

theorem slavesLoop_log_error (fs : FS) (root m : Str) (e : IOError) (slaves : List Str) :
    ∀ (sstat : Int × Int) (log : List Str),
      slavesLoop fs root m slaves sstat = (.error e, log) →
      ∃ p, log.getLast? = some p ∧ fs p = .error e := by
  induction slaves with
  | nil => intro sstat log h; simp [slavesLoop] at h
  | cons a rest ih =>
    intro sstat log h
    rw [slavesLoop_cons] at h
    rcases hr : readOperstate fs root m a with ⟨⟨state, err⟩, l1⟩
    rw [hr] at h
    cases err with
    | some e1 =>
      simp only [Prod.mk.injEq, Except.error.injEq] at h
      obtain ⟨h1, h2⟩ := h
      subst h1 h2
      exact readOperstate_log_error fs root m a state e1 l1 hr
    | none =>
      simp only [Prod.mk.injEq] at h
      obtain ⟨h1, h2⟩ := h
      rcases hrest : slavesLoop fs root m rest
        (sstat.1 + 1, if trimSpace state = "up".toList then sstat.2 + 1 else sstat.2)
        with ⟨r1, l2⟩
      rw [hrest] at h1 h2
      simp only at h1 h2
      subst h1
      obtain ⟨p, hp1, hp2⟩ := ih _ _ hrest
      exact ⟨p, by rw [← h2]; exact getLast?_append_some l1 l2 p hp1, hp2⟩

theorem mastersLoop_log_error (fs : FS) (root : Str) (e : IOError) (masters : List Str) :
    ∀ (status : StatusMap) (log : List Str),
      mastersLoop fs root masters status = (.error e, log) →
      ∃ p, log.getLast? = some p ∧ fs p = .error e := by
  induction masters with
  | nil => intro status log h; simp [mastersLoop] at h
  | cons a rest ih =>
    intro status log h
    rw [mastersLoop_cons] at h
    unfold readFile at h
    cases hs : fs (slavesPath root a) with
    | error e1 =>
      rw [hs] at h
      simp only [Prod.mk.injEq, Except.error.injEq] at h
      obtain ⟨h1, h2⟩ := h
      subst h1 h2
      exact ⟨slavesPath root a, rfl, hs⟩
    | ok cs =>
      rw [hs] at h
      simp only at h
      rcases hl : slavesLoop fs root a (fields cs) (0, 0) with ⟨r, l1⟩
      rw [hl] at h
      cases r with
      | error e1 =>
        simp only [Prod.mk.injEq, Except.error.injEq] at h
        obtain ⟨h1, h2⟩ := h
        subst h1
        obtain ⟨p, hp1, hp2⟩ := slavesLoop_log_error fs root a e1 (fields cs) (0, 0) l1 hl
        exact ⟨p, by rw [← h2]; exact getLast?_append_some [slavesPath root a] l1 p hp1, hp2⟩
      | ok sstat =>
        simp only [Prod.mk.injEq] at h
        obtain ⟨h1, h2⟩ := h
        rcases hrest : mastersLoop fs root rest (StatusMap.set status a sstat) with ⟨r1, l2⟩
        rw [hrest] at h1 h2
        simp only at h1 h2
        subst h1
        obtain ⟨p, hp1, hp2⟩ := ih _ _ hrest
        refine ⟨p, ?_, hp2⟩
        rw [← h2]
        exact getLast?_append_some (slavesPath root a :: l1) l2 p hp1

theorem readBondingStatsLog_error (fs : FS) (root : Str) (e : IOError)
    (h : (readBondingStats fs root).2 = some e) :
    ∃ p, (readBondingStatsReads fs root).getLast? = some p ∧ fs p = .error e := by
  unfold readBondingStats at h
  unfold readBondingStatsReads
  unfold readBondingStatsLog readFile at h ⊢
  cases hm : fs (mastersPath root) with
  | error e1 =>
    rw [hm] at h
    simp only [Option.some.injEq] at h
    subst h
    exact ⟨mastersPath root, by simp only [List.getLast?_singleton], hm⟩
  | ok cm =>
    rw [hm] at h
    simp only at h ⊢
    rcases hl : mastersLoop fs root (fields cm) [] with ⟨r, log⟩
    rw [hl] at h
    cases r with
    | ok st => simp at h
    | error e1 =>
      simp only [Option.some.injEq] at h
      subst h
      obtain ⟨p, hp1, hp2⟩ := mastersLoop_log_error fs root e1 (fields cm) [] log hl
      exact ⟨p, getLast?_append_some [mastersPath root] log p hp1, hp2⟩

/-- C18: when the read fails, the returned error is the error value of the
last file read, unchanged, and that read is the first failing one in walk
order: the masters file; or, after masters whose slaves file and states were
all read, the slaves file of a master; or, after slaves whose states were
read, the state of a slave, where the error is the one of the read under
`lower_` when it is not does-not-exist, and the one of the read under `slave_`
when the file under `lower_` does not exist. -/
theorem readBondingStats_first_error (fs : FS) (root : Str) (e : IOError)
    (h : (readBondingStats fs root).2 = some e) :
    (∃ p, (readBondingStatsReads fs root).getLast? = some p ∧ fs p = .error e) ∧
    (fs (mastersPath root) = .error e ∨
      ∃ (masters : Str) (ms1 : List Str) (m : Str) (ms2 : List Str),
        fs (mastersPath root) = .ok masters ∧ fields masters = ms1 ++ m :: ms2 ∧
        (∀ m1 ∈ ms1, ∃ slaves1, fs (slavesPath root m1) = .ok slaves1 ∧
          ∀ s1 ∈ fields slaves1, ∃ c, OperstateIs fs root m1 s1 c) ∧
        (fs (slavesPath root m) = .error e ∨
          ∃ (slaves : Str) (ss1 : List Str) (s : Str) (ss2 : List Str),
            fs (slavesPath root m) = .ok slaves ∧ fields slaves = ss1 ++ s :: ss2 ∧
            (∀ s1 ∈ ss1, ∃ c, OperstateIs fs root m s1 c) ∧
            ((fs (lowerPath root m s) = .error e ∧ isNotExist (some e) = false) ∨
              (missing fs (lowerPath root m s) = true ∧
                fs (slavePath root m s) = .error e)))) := by
  refine ⟨readBondingStatsLog_error fs root e h, ?_⟩
  cases hm : fs (mastersPath root) with
  | error e1 =>
    rw [readBondingStats_of_masters_error fs root e1 hm] at h
    simp only [Option.some.injEq] at h
    exact Or.inl (by rw [h])
  | ok cm =>
    right
    cases hw : walk fs root (fields cm) [] with
    | ok R =>
      rw [readBondingStats_of_walk_ok fs root cm R hm hw] at h
      cases h
    | error e1 =>
      rw [readBondingStats_of_walk_error fs root cm e1 hm hw] at h
      simp only [Option.some.injEq] at h
      subst h
      obtain ⟨ms1, m, ms2, h1, h2, h3⟩ := walk_error_split fs root e1 (fields cm) [] hw
      refine ⟨cm, ms1, m, ms2, rfl, h1, ?_, ?_⟩
      · intro m1 hm1
        obtain ⟨v, hv⟩ := h2 m1 hm1
        exact masterCounts_ok_raw fs root m1 v hv
      · unfold masterCounts at h3
        cases hs : fs (slavesPath root m) with
        | error e2 =>
          rw [hs] at h3
          simp only [Except.error.injEq] at h3
          exact Or.inl (by rw [h3])
        | ok cs =>
          rw [hs] at h3
          simp only at h3
          obtain ⟨ss1, s, ss2, k1, k2, k3⟩ :=
            countSlaves_error_split fs root m e1 (fields cs) (0, 0) h3
          exact Or.inr ⟨cs, ss1, s, ss2, rfl, k1, k2, operstate_error_eq fs root m s e1 k3⟩

/-- The slave `eth3` of `bond1` has no state file: the returned error is the
one of the last read, the read under `slave_eth3`. -/
theorem readBondingStats_first_error_example :
    (∃ p, (readBondingStatsReads orphanFS sysfsNet).getLast? = some p ∧
      orphanFS p = .error orphanError) ∧
    (orphanFS (mastersPath sysfsNet) = .error orphanError ∨
      ∃ (masters : Str) (ms1 : List Str) (m : Str) (ms2 : List Str),
        orphanFS (mastersPath sysfsNet) = .ok masters ∧ fields masters = ms1 ++ m :: ms2 ∧
        (∀ m1 ∈ ms1, ∃ slaves1, orphanFS (slavesPath sysfsNet m1) = .ok slaves1 ∧
          ∀ s1 ∈ fields slaves1, ∃ c, OperstateIs orphanFS sysfsNet m1 s1 c) ∧
        (orphanFS (slavesPath sysfsNet m) = .error orphanError ∨
          ∃ (slaves : Str) (ss1 : List Str) (s : Str) (ss2 : List Str),
            orphanFS (slavesPath sysfsNet m) = .ok slaves ∧ fields slaves = ss1 ++ s :: ss2 ∧
            (∀ s1 ∈ ss1, ∃ c, OperstateIs orphanFS sysfsNet m s1 c) ∧
            ((orphanFS (lowerPath sysfsNet m s) = .error orphanError ∧
                isNotExist (some orphanError) = false) ∨
              (missing orphanFS (lowerPath sysfsNet m s) = true ∧
                orphanFS (slavePath sysfsNet m s) = .error orphanError)))) :=
  readBondingStats_first_error orphanFS sysfsNet orphanError (by decide)

end Bonding
